import Mathlib

/-!
# Newton-Gregory finite-difference interpolation (`script.js`)

A shallow embedding of the numerical core of `script.js`: the two difference-table
builders, the two polynomial evaluators, the two midpoint samplers, `factorial`, and the two
orchestrators as functions of the parsed inputs, and `parseInput`.

Modelling decisions.

* Numbers are rationals (`ℚ`): the source computes in IEEE doubles, and the statements
  about tables and evaluators are about the exact arithmetic the doubles approximate.
  Whether `factorial` is exact is a question about the doubles themselves: for it
  `factorialDouble` rounds every product to the nearest double.
* A JavaScript array is a `List`.  A read that the source's own loop bounds keep in range
  (`diff[i + 1][j - 1]` inside the builders, `y[i]`, `x[i]` and `x[i + 1]` inside loops
  guarded by the array's length) is a total read; a read of a caller-supplied array that
  may be out of range (`x[i - 1]`, `diff[0][i]` in the evaluators) is `Option`-valued,
  `none` standing for JavaScript's `undefined`, which arithmetic turns into `NaN`.
* A `for` loop is a left fold over the list of the values its counter takes.
* Reading a property of `undefined` (`diff[0][0]` when `diff` has no rows) throws a
  `TypeError`; functions that can throw return `Except JsError _`.
* An orchestrator returns a `Session`: the values its local variables `diff`, `result` and
  `midPoints` hold when the run ends and the failure that ended it, if any.  Reading the
  page's text fields and rendering (`createTable`, `plotChart`, `formatNumber`) are not
  embedded; `parseInput` is, with the language's `Number` as a parameter.
-/

namespace NewtonGregory

/-- Errors of the embedded program. `typeError` is the exception JavaScript throws when a
property of `undefined` is read. -/
inductive JsError where
  | typeError
  deriving DecidableEq, Repr

/-- A difference table `diff`, indexed `diff[row][order]`. -/
abbrev Table := List (List ℚ)

/-- The read `diff[i][j]` where the source keeps `i` and `j` in range. -/
def getCell (diff : Table) (i j : ℕ) : ℚ :=
  (diff.getD i []).getD j 0

/-- The assignment `diff[i][j] = v` where the source keeps `i` and `j` in range. -/
def setCell (diff : Table) (i j : ℕ) (v : ℚ) : Table :=
  diff.set i ((diff.getD i []).set j v)

/-- The read `diff[i][j]` of a table given by the caller: `none` is `undefined`. -/
def readCell (diff : Table) (i j : ℕ) : Option ℚ :=
  (diff[i]?).bind (fun row => row[j]?)

/-- The source's `factorial`: `if (num <= 1) return 1; return num * factorial(num - 1);`,
in exact integer arithmetic, the idealisation in which the evaluators are embedded.  The
same function with the rounding of IEEE doubles is `factorialDouble`. -/
def factorial (num : ℤ) : ℤ :=
  if num ≤ 1 then 1 else num * factorial (num - 1)
termination_by (num - 1).toNat
decreasing_by omega

/-- `Array.from(Array(n), () => Array(n).fill(0))`: `n` rows of `n` zeros. -/
def zeroTable (n : ℕ) : Table :=
  List.replicate n (List.replicate n 0)

/-- First loop of both builders: `for (i = 0; i < n; i++) diff[i][0] = y[i]`. -/
def initColumn (y : List ℚ) (diff : Table) : Table :=
  (List.range y.length).foldl (fun d i => setCell d i 0 (y.getD i 0)) diff

/-- Body of the forward builder's inner loop:
`diff[i][j] = diff[i + 1][j - 1] - diff[i][j - 1]`. -/
def forwardCell (j : ℕ) (d : Table) (i : ℕ) : Table :=
  setCell d i j (getCell d (i + 1) (j - 1) - getCell d i (j - 1))

/-- Inner loop of the forward builder: `for (i = 0; i < n - j; i++)`. -/
def forwardColumn (n : ℕ) (d : Table) (j : ℕ) : Table :=
  (List.range (n - j)).foldl (forwardCell j) d

/-- The source's `newtonGregoryForward(x, y)`; `x` is not used by the source. -/
def newtonGregoryForward (_x y : List ℚ) : Table :=
  let n := y.length
  let diff := initColumn y (zeroTable n)
  (List.range' 1 (n - 1)).foldl (forwardColumn n) diff

/-- Body of the backward builder's inner loop:
`diff[i][j] = diff[i][j - 1] - diff[i - 1][j - 1]`. -/
def backwardCell (j : ℕ) (d : Table) (i : ℕ) : Table :=
  setCell d i j (getCell d i (j - 1) - getCell d (i - 1) (j - 1))

/-- Inner loop of the backward builder: `for (i = n - 1; i >= j; i--)`. -/
def backwardColumn (n : ℕ) (d : Table) (j : ℕ) : Table :=
  (List.range' j (n - j)).reverse.foldl (backwardCell j) d

/-- The source's `newtonGregoryBackward(x, y)`; `x` is not used by the source. -/
def newtonGregoryBackward (_x y : List ℚ) : Table :=
  let n := y.length
  let diff := initColumn y (zeroTable n)
  (List.range' 1 (n - 1)).foldl (backwardColumn n) diff

/-- Loop state of the evaluators: `result` and `product`. -/
structure EvalState where
  result : Option ℚ
  product : Option ℚ

/-- Body of the forward evaluator's loop:
`product *= (value - x[i - 1]); result += diff[0][i] * product / factorial(i);`. -/
def forwardStep (x : List ℚ) (diff : Table) (value : ℚ) (s : EvalState) (i : ℕ) :
    EvalState :=
  let product := Option.map₂ (· * ·) s.product ((x[i - 1]?).map (fun xi => value - xi))
  let term := (Option.map₂ (· * ·) (readCell diff 0 i) product).map
    (fun t => t / (factorial (i : ℤ) : ℚ))
  { result := Option.map₂ (· + ·) s.result term, product := product }

/-- The source's `evaluateNewtonGregory(x, diff, value)`. -/
def evaluateNewtonGregory (x : List ℚ) (diff : Table) (value : ℚ) :
    Except JsError (Option ℚ) :=
  let n := diff.length
  match diff[0]? with
  | none => .error .typeError
  | some row =>
    .ok ((List.range' 1 (n - 1)).foldl (forwardStep x diff value)
      { result := row[0]?, product := some 1 }).result

/-- Body of the backward evaluator's loop:
`product *= (value - x[n - i]); result += diff[n - 1][i] * product / factorial(i);`. -/
def backwardStep (x : List ℚ) (diff : Table) (value : ℚ) (s : EvalState) (i : ℕ) :
    EvalState :=
  let n := diff.length
  let product := Option.map₂ (· * ·) s.product ((x[n - i]?).map (fun xi => value - xi))
  let term := (Option.map₂ (· * ·) (readCell diff (n - 1) i) product).map
    (fun t => t / (factorial (i : ℤ) : ℚ))
  { result := Option.map₂ (· + ·) s.result term, product := product }

/-- The source's `evaluateNewtonGregoryBackward(x, diff, value)`. -/
def evaluateNewtonGregoryBackward (x : List ℚ) (diff : Table) (value : ℚ) :
    Except JsError (Option ℚ) :=
  let n := diff.length
  match diff[n - 1]? with
  | none => .error .typeError
  | some row =>
    .ok ((List.range' 1 (n - 1)).foldl (backwardStep x diff value)
      { result := row[0]?, product := some 1 }).result

/-- The midpoint loop shared by both samplers, `for (i = 0; i < x.length - 1; i++)`, run on
the remaining counter values: `midValue = (x[i] + x[i + 1]) / 2`, then
`midPoints.push(evaluate(x, diff, midValue))`; an exception of `evaluate` ends the loop. -/
def midPointsLoop (evaluate : ℚ → Except JsError (Option ℚ)) (x : List ℚ) :
    List ℕ → List (Option ℚ) → Except JsError (List (Option ℚ))
  | [], midPoints => .ok midPoints
  | i :: rest, midPoints =>
    match evaluate ((x.getD i 0 + x.getD (i + 1) 0) / 2) with
    | .error e => .error e
    | .ok r => midPointsLoop evaluate x rest (midPoints ++ [r])

/-- The source's `evaluateNewtonGregoryMidPoints(x, diff)`. -/
def evaluateNewtonGregoryMidPoints (x : List ℚ) (diff : Table) :
    Except JsError (List (Option ℚ)) :=
  midPointsLoop (evaluateNewtonGregory x diff) x (List.range (x.length - 1)) []

/-- The source's `evaluateNewtonGregoryBackwardMidPoints(x, diff)`. -/
def evaluateNewtonGregoryBackwardMidPoints (x : List ℚ) (diff : Table) :
    Except JsError (List (Option ℚ)) :=
  midPointsLoop (evaluateNewtonGregoryBackward x diff) x (List.range (x.length - 1)) []

/-- How a run of an orchestrator can fail: `lengthMismatch` is the validation branch
`if (x.length !== y.length) { alert(...); return; }`, `exception e` is an exception thrown by
one of the functions the orchestrator calls. -/
inductive SessionError where
  | lengthMismatch
  | exception (e : JsError)
  deriving DecidableEq, Repr

/-- The local variables `diff`, `result` and `midPoints` of an orchestrator when its run
ends (`none` for a variable that was never assigned) and the failure that ended the run, if
any. -/
structure Session where
  diff : Option Table
  result : Option (Option ℚ)
  midPoints : Option (List (Option ℚ))
  error : Option SessionError

/-- The source's `calculateNewtonGregory`, as a function of the parsed inputs `x`, `y` and
`value`: the length check, then `newtonGregoryForward`, `evaluateNewtonGregory` and
`evaluateNewtonGregoryMidPoints` in this order.  Reading the inputs from the page and writing
the result, the table and the chart to it are left out. -/
def calculateNewtonGregory (x y : List ℚ) (value : ℚ) : Session :=
  if x.length ≠ y.length then
    { diff := none, result := none, midPoints := none, error := some .lengthMismatch }
  else
    let diff := newtonGregoryForward x y
    match evaluateNewtonGregory x diff value with
    | .error e =>
      { diff := some diff, result := none, midPoints := none, error := some (.exception e) }
    | .ok result =>
      match evaluateNewtonGregoryMidPoints x diff with
      | .error e =>
        { diff := some diff, result := some result, midPoints := none,
          error := some (.exception e) }
      | .ok midPoints =>
        { diff := some diff, result := some result, midPoints := some midPoints,
          error := none }

/-- The source's `calculateNewtonGregoryBackward`, as a function of the parsed inputs `x`,
`y` and `value`: the length check, then `newtonGregoryBackward`,
`evaluateNewtonGregoryBackward` and `evaluateNewtonGregoryBackwardMidPoints` in this order.
Reading the inputs from the page and writing the result, the table and the chart to it are
left out. -/
def calculateNewtonGregoryBackward (x y : List ℚ) (value : ℚ) : Session :=
  if x.length ≠ y.length then
    { diff := none, result := none, midPoints := none, error := some .lengthMismatch }
  else
    let diff := newtonGregoryBackward x y
    match evaluateNewtonGregoryBackward x diff value with
    | .error e =>
      { diff := some diff, result := none, midPoints := none, error := some (.exception e) }
    | .ok result =>
      match evaluateNewtonGregoryBackwardMidPoints x diff with
      | .error e =>
        { diff := some diff, result := some result, midPoints := none,
          error := some (.exception e) }
      | .ok midPoints =>
        { diff := some diff, result := some result, midPoints := some midPoints,
          error := none }

/-- The source's `parseInput`: `input.split(',').map(Number)`.  The string is split at
every comma (a string without a comma, the empty string included, is one field);
`Number`, the language's conversion of a string to a number, is the parameter `number`,
with `none` for `NaN`. -/
def parseInput (number : String → Option ℚ) (input : String) : List (Option ℚ) :=
  (input.data.splitOn ',').map (fun field => number (String.mk field))

/-- Number of low bits that an IEEE double drops from the natural number `m`: the least `e`
with `m < 2 ^ (53 + e)`, searched up to `fuel`. -/
def droppedBits : ℕ → ℕ → ℕ
  | 0, _ => 0
  | fuel + 1, m => if m < 2 ^ 53 then 0 else droppedBits fuel (m / 2) + 1

/-- The IEEE 754 double nearest to the natural number `m` (53 significant bits, ties to the
even significand); `none` is `Infinity`.  The largest finite double is
`(2 ^ 53 - 1) * 2 ^ 971`, so the rounded value `q * 2 ^ e` is finite exactly when `e ≤ 970`,
or `e = 971` and `q < 2 ^ 53`; a search that uses up its fuel has `e = 1024`. -/
def roundDouble (m : ℕ) : Option ℕ :=
  let e := droppedBits 1024 m
  let q := m / 2 ^ e
  let r := m % 2 ^ e
  let q' := if 2 ^ e < 2 * r ∨ (2 * r = 2 ^ e ∧ q % 2 = 1) then q + 1 else q
  if e ≤ 970 ∨ (e = 971 ∧ q' < 2 ^ 53) then some (q' * 2 ^ e) else none

/-- The source's `factorial` in the arithmetic the source runs in, IEEE doubles, for an
integer argument that a double holds exactly (up to `2 ^ 53`, where `num - 1` is exact too):
`if (num <= 1) return 1; return num * factorial(num - 1);` with the product rounded to the
nearest double.  `none` is `Infinity`.  The engine's limit on the recursion depth is not
modelled. -/
def factorialDouble (num : ℤ) : Option ℕ :=
  if num ≤ 1 then some 1
  else (factorialDouble (num - 1)).bind (fun f => roundDouble (num.toNat * f))
termination_by (num - 1).toNat
decreasing_by omega

/-- The recursion of `factorialDouble` on a natural argument, by structural recursion. -/
def factorialDoubleNat : ℕ → Option ℕ
  | 0 => some 1
  | k + 1 =>
    if k = 0 then some 1
    else (factorialDoubleNat k).bind (fun f => roundDouble ((k + 1) * f))

/-! ## Definitions used to state the properties -/

/-- A table is square of side `n`. -/
def Square (n : ℕ) (d : Table) : Prop :=
  d.length = n ∧ ∀ r ∈ d, r.length = n

/-- The `j`-th forward difference of `y` at position `i` (entries past the end read `0`). -/
def delta (y : List ℚ) : ℕ → ℕ → ℚ
  | 0, i => y.getD i 0
  | j + 1, i => delta y j (i + 1) - delta y j i

/-- Adjacent differences of a list: entry `k` is `l[k + 1] - l[k]`, one entry fewer than
`l`. -/
def adjacentDiffs (l : List ℚ) : List ℚ :=
  List.zipWith (fun a b => b - a) l l.tail

/-- The list `D_j` of `j`-th differences by direct repeated subtraction: `D_0 = y` and
`D_j` is the list of adjacent differences of `D_(j-1)`. -/
def iteratedDiffs (y : List ℚ) : ℕ → List ℚ
  | 0 => y
  | j + 1 => adjacentDiffs (iteratedDiffs y j)

/-- The abscissae are unit-spaced: `x[i + 1] = x[i] + 1` for every adjacent pair. -/
def UnitSpaced (x : List ℚ) : Prop :=
  ∀ i (h : i + 1 < x.length), x[i + 1] = x[i] + 1

/-- Newton's form of a polynomial with coefficients `c` and nodes `a`, evaluated at `v`:
`Σ_{k < n} c k * ((v - a 0) ⋯ (v - a (k - 1)))`. -/
def newtonSum (c a : ℕ → ℚ) (n : ℕ) (v : ℚ) : ℚ :=
  ∑ k in Finset.range n, c k * ∏ t in Finset.range k, (v - a t)

/-- The backward builder's inner loop with the row counter running upward instead,
`for (i = j; i <= n - 1; i++)`, and the same body. -/
def backwardColumnAscending (n : ℕ) (d : Table) (j : ℕ) : Table :=
  (List.range' j (n - j)).foldl (backwardCell j) d

/-- The construction of `newtonGregoryBackward` with every column filled upward. -/
def newtonGregoryBackwardAscending (_x y : List ℚ) : Table :=
  let n := y.length
  let diff := initColumn y (zeroTable n)
  (List.range' 1 (n - 1)).foldl (backwardColumnAscending n) diff

/-! ## Tables: shape, cell reads and writes -/

theorem square_zeroTable (n : ℕ) : Square n (zeroTable n) := by
  constructor
  · simp [zeroTable]
  · intro r hr
    simp [zeroTable] at hr
    rw [hr.2]; simp

theorem getCell_zeroTable (n i j : ℕ) : getCell (zeroTable n) i j = 0 := by
  unfold getCell zeroTable
  simp only [List.getD_eq_getElem?_getD, List.getElem?_replicate]
  split_ifs <;> simp [List.getElem?_replicate]
  split_ifs <;> simp

theorem square_row_length {n : ℕ} {d : Table} (h : Square n d) {i : ℕ} (hi : i < n) :
    (d.getD i []).length = n := by
  apply h.2
  have : i < d.length := by rw [h.1]; exact hi
  simp [List.getD_eq_getElem?_getD, List.getElem?_eq_getElem this]

theorem square_setCell {n : ℕ} {d : Table} (h : Square n d) (i j : ℕ) (v : ℚ) :
    Square n (setCell d i j v) := by
  unfold setCell
  by_cases hi : i < n
  · refine ⟨by simpa using h.1, ?_⟩
    intro r hr
    rcases List.mem_or_eq_of_mem_set hr with hr | hr
    · exact h.2 r hr
    · subst hr
      simpa using square_row_length h hi
  · have hlen : d.length ≤ i := by rw [h.1]; omega
    rw [List.set_eq_of_length_le hlen]
    exact h

theorem getCell_setCell {n : ℕ} {d : Table} (h : Square n d) {i j : ℕ} (hi : i < n)
    (hj : j < n) (v : ℚ) (i' j' : ℕ) :
    getCell (setCell d i j v) i' j' = if i' = i ∧ j' = j then v else getCell d i' j' := by
  have hil : i < d.length := by rw [h.1]; exact hi
  have hjl : j < (d.getD i []).length := by rw [square_row_length h hi]; exact hj
  unfold getCell setCell
  simp only [List.getD_eq_getElem?_getD] at *
  by_cases hii : i' = i
  · subst hii
    by_cases hjj : j' = j
    · subst hjj
      rw [List.getElem?_eq_getElem hil] at hjl
      simp at hjl
      simp [List.getElem?_set, hil, hjl]
    · have : ¬ j = j' := fun h => hjj h.symm
      simp [List.getElem?_set, hil, hjj, this]
  · have : ¬ i = i' := fun h => hii h.symm
    simp [List.getElem?_set, hii, this]

/-- Filling column `j` from values that depend on another column `c` only: the rows in `L`
receive their value computed on the table as it was before the loop, in whatever order `L`
lists them. -/
theorem foldl_column {n j c : ℕ} (hc : c ≠ j) (hjn : j < n) (val : Table → ℕ → ℚ)
    (hval : ∀ d d' : Table, (∀ k, getCell d k c = getCell d' k c) → ∀ i, val d i = val d' i)
    (L : List ℕ) (hL : ∀ i ∈ L, i < n) (d : Table) (hd : Square n d) :
    Square n (L.foldl (fun t i => setCell t i j (val t i)) d) ∧
    ∀ i' j', getCell (L.foldl (fun t i => setCell t i j (val t i)) d) i' j' =
      if j' = j ∧ i' ∈ L then val d i' else getCell d i' j' := by
  induction L generalizing d with
  | nil => exact ⟨hd, fun i' j' => by simp⟩
  | cons a L ih =>
    have ha : a < n := hL a (List.mem_cons_self _ _)
    have hd1 : Square n (setCell d a j (val d a)) := square_setCell hd a j _
    have hcol : ∀ k, getCell (setCell d a j (val d a)) k c = getCell d k c := by
      intro k
      rw [getCell_setCell hd ha hjn]
      simp [hc]
    obtain ⟨hs, hcell⟩ := ih (fun i hi => hL i (List.mem_cons_of_mem _ hi)) _ hd1
    refine ⟨by simpa [List.foldl_cons] using hs, ?_⟩
    intro i' j'
    rw [List.foldl_cons, hcell i' j', getCell_setCell hd ha hjn, hval _ d hcol i']
    by_cases h1 : j' = j
    · by_cases h2 : i' ∈ L
      · simp [h1, h2]
      · by_cases h3 : i' = a
        · simp [h1, h3]
        · simp [h1, h2, h3]
    · simp [h1]

theorem initColumn_spec (y : List ℚ) :
    Square y.length (initColumn y (zeroTable y.length)) ∧
    ∀ i j, getCell (initColumn y (zeroTable y.length)) i j =
      if j = 0 ∧ i < y.length then y.getD i 0 else 0 := by
  by_cases hn : y.length = 0
  · simp [initColumn, hn, square_zeroTable, getCell_zeroTable]
  · have h := foldl_column (n := y.length) (j := 0) (c := 1) (by omega) (by omega)
      (fun _ i => y.getD i 0) (fun _ _ _ _ => rfl) (List.range y.length)
      (fun i hi => List.mem_range.1 hi) _ (square_zeroTable y.length)
    refine ⟨h.1, fun i j => ?_⟩
    have := h.2 i j
    simp only [List.mem_range, getCell_zeroTable] at this
    exact this

theorem forwardColumns_spec (y : List ℚ) (m : ℕ) (hm : m ≤ y.length - 1) :
    Square y.length ((List.range' 1 m).foldl (forwardColumn y.length)
      (initColumn y (zeroTable y.length))) ∧
    ∀ i j, getCell ((List.range' 1 m).foldl (forwardColumn y.length)
      (initColumn y (zeroTable y.length))) i j =
      if j ≤ m ∧ i + j < y.length then delta y j i else 0 := by
  induction m with
  | zero =>
    refine ⟨(initColumn_spec y).1, fun i j => ?_⟩
    simp only [List.range'_zero, List.foldl_nil, (initColumn_spec y).2]
    by_cases hj : j = 0
    · subst hj; simp [delta]
    · simp [hj]
  | succ m ih =>
    obtain ⟨hsq, hcell⟩ := ih (by omega)
    rw [List.range'_1_concat, List.foldl_append]
    simp only [List.foldl_cons, List.foldl_nil]
    generalize (List.range' 1 m).foldl (forwardColumn y.length)
      (initColumn y (zeroTable y.length)) = d at hsq hcell
    have h := foldl_column (n := y.length) (j := 1 + m) (c := m) (by omega) (by omega)
      (fun t i => getCell t (i + 1) m - getCell t i m)
      (fun t t' ht i => by simp only [ht]) (List.range (y.length - (1 + m)))
      (fun i hi => by have := List.mem_range.1 hi; omega) d hsq
    have hfold : forwardColumn y.length d (1 + m) =
        (List.range (y.length - (1 + m))).foldl
          (fun t i => setCell t i (1 + m) (getCell t (i + 1) m - getCell t i m)) d := by
      unfold forwardColumn forwardCell
      simp
    rw [hfold]
    refine ⟨h.1, fun i j => ?_⟩
    rw [h.2 i j]
    simp only [hcell, List.mem_range]
    by_cases hj : j = 1 + m
    · subst hj
      by_cases hi : i < y.length - (1 + m)
      · have h1 : i + 1 + m < y.length := by omega
        have h2 : i + m < y.length := by omega
        have h3 : i + (1 + m) < y.length := by omega
        have h4 : 1 + m = m + 1 := by omega
        have h5 : i < y.length - (m + 1) := by omega
        have h6 : i + (m + 1) < y.length := by omega
        simp [h5, h1, h2, h6, h4, delta]
      · have h3 : ¬ i + (1 + m) < y.length := by omega
        simp [hi, h3]
    · by_cases hj' : j ≤ m
      · have : j ≤ m + 1 := by omega
        simp [hj, hj', this]
      · have : ¬ j ≤ m + 1 := by omega
        simp [hj, hj', this]

theorem backwardColumns_spec (y : List ℚ) (m : ℕ) (hm : m ≤ y.length - 1) :
    Square y.length ((List.range' 1 m).foldl (backwardColumn y.length)
      (initColumn y (zeroTable y.length))) ∧
    ∀ i j, getCell ((List.range' 1 m).foldl (backwardColumn y.length)
      (initColumn y (zeroTable y.length))) i j =
      if j ≤ m ∧ j ≤ i ∧ i < y.length then delta y j (i - j) else 0 := by
  induction m with
  | zero =>
    refine ⟨(initColumn_spec y).1, fun i j => ?_⟩
    simp only [List.range'_zero, List.foldl_nil, (initColumn_spec y).2]
    by_cases hj : j = 0
    · subst hj; simp [delta]
    · simp [hj]
  | succ m ih =>
    obtain ⟨hsq, hcell⟩ := ih (by omega)
    rw [List.range'_1_concat, List.foldl_append]
    simp only [List.foldl_cons, List.foldl_nil]
    generalize (List.range' 1 m).foldl (backwardColumn y.length)
      (initColumn y (zeroTable y.length)) = d at hsq hcell
    have h := foldl_column (n := y.length) (j := 1 + m) (c := m) (by omega) (by omega)
      (fun t i => getCell t i m - getCell t (i - 1) m)
      (fun t t' ht i => by simp only [ht])
      (List.range' (1 + m) (y.length - (1 + m))).reverse
      (fun i hi => by
        have := List.mem_range'_1.1 (List.mem_reverse.1 hi); omega) d hsq
    have hfold : backwardColumn y.length d (1 + m) =
        (List.range' (1 + m) (y.length - (1 + m))).reverse.foldl
          (fun t i => setCell t i (1 + m) (getCell t i m - getCell t (i - 1) m)) d := by
      unfold backwardColumn backwardCell
      simp
    rw [hfold]
    refine ⟨h.1, fun i j => ?_⟩
    rw [h.2 i j]
    simp only [hcell, List.mem_reverse, List.mem_range'_1]
    have h4 : 1 + m = m + 1 := by omega
    by_cases hj : j = m + 1
    · subst hj
      by_cases hi : m + 1 ≤ i ∧ i < y.length
      · have e1 : i - m = i - (m + 1) + 1 := by omega
        have e2 : i - 1 - m = i - (m + 1) := by omega
        have h5 : m ≤ i - 1 ∧ i - 1 < y.length := by omega
        have h6 : m ≤ i := by omega
        have h7 : 1 + m ≤ i ∧ i < 1 + m + (y.length - (1 + m)) := by omega
        rw [if_pos ⟨h4.symm, h7⟩, if_pos ⟨le_refl m, h6, hi.2⟩, if_pos ⟨le_refl m, h5⟩,
          if_pos ⟨le_refl _, hi⟩, e1, e2]
        simp [delta]
      · have h7 : ¬ (1 + m ≤ i ∧ i < 1 + m + (y.length - (1 + m))) := by omega
        have h8 : ¬ (m + 1 ≤ m ∧ m + 1 ≤ i ∧ i < y.length) := by omega
        rw [if_neg (fun h => h7 h.2), if_neg h8, if_neg (fun h => hi h.2)]
    · have h7 : ¬ (j = 1 + m ∧ 1 + m ≤ i ∧ i < 1 + m + (y.length - (1 + m))) := by omega
      rw [if_neg h7]
      by_cases hj' : j ≤ m
      · have : j ≤ m + 1 := by omega
        simp [hj', this]
      · have : ¬ j ≤ m + 1 := by omega
        simp [hj', this]

theorem square_forward (x y : List ℚ) : Square y.length (newtonGregoryForward x y) :=
  (forwardColumns_spec y (y.length - 1) le_rfl).1

theorem square_backward (x y : List ℚ) : Square y.length (newtonGregoryBackward x y) :=
  (backwardColumns_spec y (y.length - 1) le_rfl).1

/-- Closed form of the forward table: the cell of row `i` and order `j` holds the `j`-th
forward difference at `i` inside the triangle `i + j < n`, and `0` outside. -/
theorem getCell_forward (x y : List ℚ) (i j : ℕ) :
    getCell (newtonGregoryForward x y) i j =
      if i + j < y.length then delta y j i else 0 := by
  have h := (forwardColumns_spec y (y.length - 1) le_rfl).2 i j
  unfold newtonGregoryForward
  simp only [h]
  by_cases hij : i + j < y.length
  · have : j ≤ y.length - 1 := by omega
    simp [hij, this]
  · simp [hij]

/-- Closed form of the backward table: the cell of row `i` and order `j` holds the `j`-th
forward difference at `i - j` inside the triangle `j ≤ i < n`, and `0` outside. -/
theorem getCell_backward (x y : List ℚ) (i j : ℕ) :
    getCell (newtonGregoryBackward x y) i j =
      if j ≤ i ∧ i < y.length then delta y j (i - j) else 0 := by
  have h := (backwardColumns_spec y (y.length - 1) le_rfl).2 i j
  unfold newtonGregoryBackward
  simp only [h]
  by_cases hij : j ≤ i ∧ i < y.length
  · have : j ≤ y.length - 1 := by omega
    simp [hij, this]
  · have : ¬ (j ≤ y.length - 1 ∧ j ≤ i ∧ i < y.length) := fun h => hij h.2
    simp [hij, this]

theorem readCell_eq_getCell {n : ℕ} {d : Table} (h : Square n d) {i j : ℕ} (hi : i < n)
    (hj : j < n) : readCell d i j = some (getCell d i j) := by
  have hil : i < d.length := by rw [h.1]; exact hi
  have hrow := square_row_length h hi
  unfold readCell getCell
  simp only [List.getD_eq_getElem?_getD, List.getElem?_eq_getElem hil, Option.getD_some,
    Option.some_bind] at *
  have hjl : j < d[i].length := by rw [hrow]; exact hj
  simp [List.getElem?_eq_getElem hjl]

/-- On a natural number the source's `factorial` is the factorial. -/
theorem factorial_natCast (k : ℕ) : factorial (k : ℤ) = (k.factorial : ℤ) := by
  induction k with
  | zero => rw [factorial]; simp
  | succ k ih =>
    rw [factorial]
    by_cases hk : k = 0
    · subst hk; simp
    · have : ¬ ((k + 1 : ℕ) : ℤ) ≤ 1 := by omega
      rw [if_neg this]
      have e : ((k + 1 : ℕ) : ℤ) - 1 = (k : ℤ) := by push_cast; ring
      rw [e, ih, Nat.factorial_succ]
      push_cast; ring

theorem factorial_natCast_rat (k : ℕ) : ((factorial (k : ℤ) : ℤ) : ℚ) = (k.factorial : ℚ) := by
  rw [factorial_natCast]; simp

/-- The forward evaluator's loop after `m` rounds, on a square table of side `n`. -/
theorem forwardLoop_spec (x : List ℚ) (diff : Table) (value : ℚ) (n : ℕ)
    (hsq : Square n diff) (hx : n - 1 ≤ x.length) (m : ℕ) (hm : m ≤ n - 1) :
    (List.range' 1 m).foldl (forwardStep x diff value)
      { result := some (getCell diff 0 0), product := some 1 } =
    { result := some (getCell diff 0 0 + ∑ k in Finset.Icc 1 m,
        getCell diff 0 k * (∏ t in Finset.range k, (value - x.getD t 0)) / (k.factorial : ℚ)),
      product := some (∏ t in Finset.range m, (value - x.getD t 0)) } := by
  induction m with
  | zero => simp
  | succ m ih =>
    rw [List.range'_1_concat, List.foldl_append, ih (by omega)]
    have hxm : m < x.length := by omega
    have hcell : readCell diff 0 (1 + m) = some (getCell diff 0 (1 + m)) :=
      readCell_eq_getCell hsq (by omega) (by omega)
    have e : 1 + m = m + 1 := by omega
    simp only [List.foldl_cons, List.foldl_nil, forwardStep, hcell, factorial_natCast_rat,
      Nat.add_sub_cancel_left, List.getElem?_eq_getElem hxm, Option.map_some',
      Option.map₂_some_some, EvalState.mk.injEq, Option.some.injEq]
    rw [Finset.sum_Icc_succ_top (by omega), Finset.prod_range_succ,
      List.getD_eq_getElem _ _ hxm, e]
    simp [add_assoc]

/-- The backward evaluator's loop after `m` rounds, on a square table of side `n`. -/
theorem backwardLoop_spec (x : List ℚ) (diff : Table) (value : ℚ) (n : ℕ)
    (hsq : Square n diff) (hx : n ≤ x.length) (m : ℕ) (hm : m ≤ n - 1) :
    (List.range' 1 m).foldl (backwardStep x diff value)
      { result := some (getCell diff (n - 1) 0), product := some 1 } =
    { result := some (getCell diff (n - 1) 0 + ∑ k in Finset.Icc 1 m,
        getCell diff (n - 1) k * (∏ t in Finset.Icc 1 k, (value - x.getD (n - t) 0)) /
          (k.factorial : ℚ)),
      product := some (∏ t in Finset.Icc 1 m, (value - x.getD (n - t) 0)) } := by
  induction m with
  | zero => simp
  | succ m ih =>
    rw [List.range'_1_concat, List.foldl_append, ih (by omega)]
    have hxm : n - (1 + m) < x.length := by omega
    have hcell : readCell diff (n - 1) (1 + m) = some (getCell diff (n - 1) (1 + m)) :=
      readCell_eq_getCell hsq (by omega) (by omega)
    have e : 1 + m = m + 1 := by omega
    simp only [List.foldl_cons, List.foldl_nil, backwardStep, hsq.1, hcell,
      factorial_natCast_rat, List.getElem?_eq_getElem hxm, Option.map_some',
      Option.map₂_some_some, EvalState.mk.injEq, Option.some.injEq]
    have hg : x.getD (n - (m + 1)) 0 = x[n - (1 + m)] := by
      rw [← List.getD_eq_getElem _ 0 hxm, e]
    rw [Finset.sum_Icc_succ_top (by omega), Finset.prod_Icc_succ_top (by omega), hg, ← e]
    simp [add_assoc]

/-! ## The difference tables -/

/-- C4: forward table recurrence. In `T = newtonGregoryForward(x, y)` with `n = y.length`,
for every order `1 ≤ j ≤ n - 1` and every row `0 ≤ i ≤ n - j - 1` the cell `T[i][j]` is in
range and `T[i][j] = T[i + 1][j - 1] - T[i][j - 1]`. -/
theorem forward_recurrence (x y : List ℚ) (i j : ℕ) (hj : 1 ≤ j) (hjn : j ≤ y.length - 1)
    (hi : i ≤ y.length - j - 1) :
    (readCell (newtonGregoryForward x y) i j).isSome = true ∧
    readCell (newtonGregoryForward x y) i j =
      Option.map₂ (fun a b => a - b) (readCell (newtonGregoryForward x y) (i + 1) (j - 1))
        (readCell (newtonGregoryForward x y) i (j - 1)) := by
  have hsq := square_forward x y
  obtain ⟨k, rfl⟩ : ∃ k, j = k + 1 := ⟨j - 1, by omega⟩
  rw [readCell_eq_getCell hsq (by omega : i < y.length) (by omega : k + 1 < y.length),
    readCell_eq_getCell hsq (by omega : i + 1 < y.length) (by omega : k + 1 - 1 < y.length),
    readCell_eq_getCell hsq (by omega : i < y.length) (by omega : k + 1 - 1 < y.length)]
  simp only [getCell_forward, Nat.add_sub_cancel, Option.isSome_some, Option.map₂_some_some,
    true_and]
  rw [if_pos (by omega), if_pos (by omega), if_pos (by omega)]
  simp [delta]

/-- Witness of C4 on the specification's scenario `y = [1, 2, 9, 28]`: the whole table, and
the recurrence at row 1, order 2 (`12 = 19 - 7`). -/
theorem forward_recurrence_witness :
    newtonGregoryForward [0, 1, 2, 3] [1, 2, 9, 28] =
      [[1, 1, 6, 6], [2, 7, 12, 0], [9, 19, 0, 0], [28, 0, 0, 0]] ∧
    (1 ≤ 2 ∧ 2 ≤ ([1, 2, 9, 28] : List ℚ).length - 1 ∧
      1 ≤ ([1, 2, 9, 28] : List ℚ).length - 2 - 1) ∧
    ((readCell (newtonGregoryForward [0, 1, 2, 3] [1, 2, 9, 28]) 1 2).isSome = true ∧
    readCell (newtonGregoryForward [0, 1, 2, 3] [1, 2, 9, 28]) 1 2 =
      Option.map₂ (fun a b => a - b)
        (readCell (newtonGregoryForward [0, 1, 2, 3] [1, 2, 9, 28]) (1 + 1) (2 - 1))
        (readCell (newtonGregoryForward [0, 1, 2, 3] [1, 2, 9, 28]) 1 (2 - 1))) :=
  ⟨by
    simp [newtonGregoryForward, initColumn, zeroTable, forwardColumn, forwardCell, setCell,
      getCell, List.range, List.range.loop, List.range', List.replicate]
    norm_num,
   ⟨by decide, by decide, by decide⟩,
   forward_recurrence [0, 1, 2, 3] [1, 2, 9, 28] 1 2 (by decide) (by decide) (by decide)⟩

/-- C5: backward table recurrence. In `T = newtonGregoryBackward(x, y)` with `n = y.length`,
for every order `1 ≤ j ≤ n - 1` and every row `j ≤ i ≤ n - 1` the cell `T[i][j]` is in range
and `T[i][j] = T[i][j - 1] - T[i - 1][j - 1]`. -/
theorem backward_recurrence (x y : List ℚ) (i j : ℕ) (hj : 1 ≤ j) (hjn : j ≤ y.length - 1)
    (hji : j ≤ i) (hi : i ≤ y.length - 1) :
    (readCell (newtonGregoryBackward x y) i j).isSome = true ∧
    readCell (newtonGregoryBackward x y) i j =
      Option.map₂ (fun a b => a - b) (readCell (newtonGregoryBackward x y) i (j - 1))
        (readCell (newtonGregoryBackward x y) (i - 1) (j - 1)) := by
  have hsq := square_backward x y
  obtain ⟨k, rfl⟩ : ∃ k, j = k + 1 := ⟨j - 1, by omega⟩
  rw [readCell_eq_getCell hsq (by omega : i < y.length) (by omega : k + 1 < y.length),
    readCell_eq_getCell hsq (by omega : i < y.length) (by omega : k + 1 - 1 < y.length),
    readCell_eq_getCell hsq (by omega : i - 1 < y.length) (by omega : k + 1 - 1 < y.length)]
  simp only [getCell_backward, Nat.add_sub_cancel, Option.isSome_some, Option.map₂_some_some,
    true_and]
  rw [if_pos (by omega), if_pos (by omega), if_pos (by omega)]
  have e1 : i - k = i - (k + 1) + 1 := by omega
  have e2 : i - 1 - k = i - (k + 1) := by omega
  rw [e1, e2]
  simp [delta]

/-- Witness of C5 on `y = [1, 2, 9, 28]`: the whole table, and the recurrence at row 3,
order 2 (`12 = 19 - 7`). -/
theorem backward_recurrence_witness :
    newtonGregoryBackward [0, 1, 2, 3] [1, 2, 9, 28] =
      [[1, 0, 0, 0], [2, 1, 0, 0], [9, 7, 6, 0], [28, 19, 12, 6]] ∧
    (1 ≤ 2 ∧ 2 ≤ ([1, 2, 9, 28] : List ℚ).length - 1 ∧ 2 ≤ 3 ∧
      3 ≤ ([1, 2, 9, 28] : List ℚ).length - 1) ∧
    ((readCell (newtonGregoryBackward [0, 1, 2, 3] [1, 2, 9, 28]) 3 2).isSome = true ∧
    readCell (newtonGregoryBackward [0, 1, 2, 3] [1, 2, 9, 28]) 3 2 =
      Option.map₂ (fun a b => a - b)
        (readCell (newtonGregoryBackward [0, 1, 2, 3] [1, 2, 9, 28]) 3 (2 - 1))
        (readCell (newtonGregoryBackward [0, 1, 2, 3] [1, 2, 9, 28]) (3 - 1) (2 - 1))) :=
  ⟨by
    simp [newtonGregoryBackward, initColumn, zeroTable, backwardColumn, backwardCell, setCell,
      getCell, List.range, List.range.loop, List.range', List.replicate]
    norm_num,
   ⟨by decide, by decide, by decide, by decide⟩,
   backward_recurrence [0, 1, 2, 3] [1, 2, 9, 28] 3 2 (by decide) (by decide) (by decide)
     (by decide)⟩

/-- C6: column 0 equals the raw samples. For every `y` and every `i < y.length`, the cells
`newtonGregoryForward(x, y)[i][0]` and `newtonGregoryBackward(x, y)[i][0]` are both `y[i]`. -/
theorem column_zero (x y : List ℚ) (i : ℕ) (hi : i < y.length) :
    readCell (newtonGregoryForward x y) i 0 = some y[i] ∧
    readCell (newtonGregoryBackward x y) i 0 = some y[i] := by
  rw [readCell_eq_getCell (square_forward x y) hi (by omega),
    readCell_eq_getCell (square_backward x y) hi (by omega), getCell_forward, getCell_backward,
    if_pos (by omega), if_pos (by omega)]
  simp [delta, List.getElem?_eq_getElem hi]

/-- Witness of C6 on `y = [1, 2, 9, 28]` at row 2. -/
theorem column_zero_witness :
    2 < ([1, 2, 9, 28] : List ℚ).length ∧
    readCell (newtonGregoryForward [0, 1, 2, 3] [1, 2, 9, 28]) 2 0 = some 9 ∧
    readCell (newtonGregoryBackward [0, 1, 2, 3] [1, 2, 9, 28]) 2 0 = some 9 :=
  ⟨by decide, column_zero [0, 1, 2, 3] [1, 2, 9, 28] 2 (by decide)⟩

theorem length_iteratedDiffs (y : List ℚ) (j : ℕ) :
    (iteratedDiffs y j).length = y.length - j := by
  induction j with
  | zero => simp [iteratedDiffs]
  | succ j ih =>
    simp only [iteratedDiffs, adjacentDiffs, List.length_zipWith, List.length_tail, ih]
    omega

theorem getElem?_iteratedDiffs (y : List ℚ) (j i : ℕ) (h : i + j < y.length) :
    (iteratedDiffs y j)[i]? = some (delta y j i) := by
  induction j generalizing i with
  | zero => simp [iteratedDiffs, delta, List.getElem?_eq_getElem (by omega : i < y.length)]
  | succ j ih =>
    simp only [iteratedDiffs, adjacentDiffs, List.getElem?_zipWith, List.getElem?_tail,
      ih i (by omega), ih (i + 1) (by omega), delta]

/-- C7: anchor rows equal iterated differences computed directly. With `D_j` the list of
`j`-th differences by repeated subtraction (`iteratedDiffs y j`) and `n = y.length`, for every
`j < n` the cell `newtonGregoryForward(x, y)[0][j]` is in range and is the first element of
`D_j`, and the cell `newtonGregoryBackward(x, y)[n - 1][j]` is in range and is the last
element of `D_j`. -/
theorem anchor_rows (x y : List ℚ) (j : ℕ) (hj : j < y.length) :
    ((readCell (newtonGregoryForward x y) 0 j).isSome = true ∧
      readCell (newtonGregoryForward x y) 0 j = (iteratedDiffs y j).head?) ∧
    ((readCell (newtonGregoryBackward x y) (y.length - 1) j).isSome = true ∧
      readCell (newtonGregoryBackward x y) (y.length - 1) j =
        (iteratedDiffs y j).getLast?) := by
  rw [readCell_eq_getCell (square_forward x y) (by omega) hj,
    readCell_eq_getCell (square_backward x y) (by omega) hj, getCell_forward,
    getCell_backward, if_pos (by omega), if_pos (by omega), List.head?_eq_getElem?,
    List.getLast?_eq_getElem?, length_iteratedDiffs,
    getElem?_iteratedDiffs y j 0 (by omega),
    getElem?_iteratedDiffs y j (y.length - j - 1) (by omega)]
  have e : y.length - 1 - j = y.length - j - 1 := by omega
  simp [e]

/-- Witness of C7 on `y = [1, 2, 9, 28]` at order 2, where `D_2 = [6, 12]`. -/
theorem anchor_rows_witness :
    iteratedDiffs [1, 2, 9, 28] 2 = [6, 12] ∧
    2 < ([1, 2, 9, 28] : List ℚ).length ∧
    ((readCell (newtonGregoryForward [0, 1, 2, 3] [1, 2, 9, 28]) 0 2).isSome = true ∧
      readCell (newtonGregoryForward [0, 1, 2, 3] [1, 2, 9, 28]) 0 2 =
        (iteratedDiffs [1, 2, 9, 28] 2).head?) ∧
    ((readCell (newtonGregoryBackward [0, 1, 2, 3] [1, 2, 9, 28])
        (([1, 2, 9, 28] : List ℚ).length - 1) 2).isSome = true ∧
      readCell (newtonGregoryBackward [0, 1, 2, 3] [1, 2, 9, 28])
        (([1, 2, 9, 28] : List ℚ).length - 1) 2 = (iteratedDiffs [1, 2, 9, 28] 2).getLast?) :=
  ⟨by norm_num [iteratedDiffs, adjacentDiffs], by decide,
    anchor_rows [0, 1, 2, 3] [1, 2, 9, 28] 2 (by decide)⟩

/-! ## The evaluators -/

theorem evaluateNewtonGregory_eq_loop (x : List ℚ) (diff : Table) (value : ℚ) (n : ℕ)
    (hn : 1 ≤ n) (hsq : Square n diff) :
    evaluateNewtonGregory x diff value =
      .ok ((List.range' 1 (n - 1)).foldl (forwardStep x diff value)
        { result := some (getCell diff 0 0), product := some 1 }).result := by
  have h0 : diff[0]? = some (diff.getD 0 []) := by
    have : 0 < diff.length := by rw [hsq.1]; omega
    simp [List.getElem?_eq_getElem this]
  have h00 := readCell_eq_getCell hsq (by omega : 0 < n) (by omega : 0 < n)
  unfold readCell at h00
  rw [h0, Option.some_bind] at h00
  unfold evaluateNewtonGregory
  simp only [h0, h00, hsq.1]

theorem evaluateNewtonGregoryBackward_eq_loop (x : List ℚ) (diff : Table) (value : ℚ)
    (n : ℕ) (hn : 1 ≤ n) (hsq : Square n diff) :
    evaluateNewtonGregoryBackward x diff value =
      .ok ((List.range' 1 (n - 1)).foldl (backwardStep x diff value)
        { result := some (getCell diff (n - 1) 0), product := some 1 }).result := by
  have h0 : diff[n - 1]? = some (diff.getD (n - 1) []) := by
    have : n - 1 < diff.length := by rw [hsq.1]; omega
    simp [List.getElem?_eq_getElem this]
  have h00 := readCell_eq_getCell hsq (by omega : n - 1 < n) (by omega : 0 < n)
  unfold readCell at h00
  rw [h0, Option.some_bind] at h00
  unfold evaluateNewtonGregoryBackward
  simp only [hsq.1, h0, h00]

/-- C8: forward evaluation formula. For a table `diff` of `n ≥ 1` rows of `n` entries, an `x`
with at least `n - 1` entries and any `value`, `evaluateNewtonGregory(x, diff, value)` returns
`diff[0][0] + Σ_{k = 1}^{n - 1} diff[0][k] * ((value - x[0]) ⋯ (value - x[k - 1])) / k!`. -/
theorem evaluateNewtonGregory_formula (x : List ℚ) (diff : Table) (value : ℚ) (n : ℕ)
    (hn : 1 ≤ n) (hrows : diff.length = n) (hcols : ∀ row ∈ diff, row.length = n)
    (hx : n - 1 ≤ x.length) :
    evaluateNewtonGregory x diff value =
      .ok (some (getCell diff 0 0 + ∑ k in Finset.Icc 1 (n - 1),
        getCell diff 0 k * (∏ t in Finset.range k, (value - x.getD t 0)) /
          (k.factorial : ℚ))) := by
  rw [evaluateNewtonGregory_eq_loop x diff value n hn ⟨hrows, hcols⟩,
    forwardLoop_spec x diff value n ⟨hrows, hcols⟩ hx (n - 1) le_rfl]

/-- Witness of C8 on the forward table of `x = [0, 1, 2, 3]`, `y = [1, 2, 9, 28]` at
`value = 3 / 2`; the formula's value there is `35 / 8`. -/
theorem evaluateNewtonGregory_formula_witness :
    (1 ≤ 4 ∧ ([[1, 1, 6, 6], [2, 7, 12, 0], [9, 19, 0, 0], [28, 0, 0, 0]] : Table).length = 4 ∧
      (∀ row ∈ ([[1, 1, 6, 6], [2, 7, 12, 0], [9, 19, 0, 0], [28, 0, 0, 0]] : Table),
        row.length = 4) ∧ 4 - 1 ≤ ([0, 1, 2, 3] : List ℚ).length) ∧
    evaluateNewtonGregory [0, 1, 2, 3]
      [[1, 1, 6, 6], [2, 7, 12, 0], [9, 19, 0, 0], [28, 0, 0, 0]] (3 / 2) =
      .ok (some (35 / 8)) :=
  ⟨⟨by decide, by decide, by simp, by decide⟩, by
    rw [evaluateNewtonGregory_formula [0, 1, 2, 3]
      [[1, 1, 6, 6], [2, 7, 12, 0], [9, 19, 0, 0], [28, 0, 0, 0]] (3 / 2) 4 (by decide)
      (by decide) (by simp) (by decide)]
    norm_num [getCell, Finset.sum_Icc_succ_top, Finset.prod_range_succ, Nat.factorial]⟩

/-- C9: backward evaluation formula. For a table `diff` of `n ≥ 1` rows of `n` entries, an
`x` of length `n` and any `value`, `evaluateNewtonGregoryBackward(x, diff, value)` returns
`diff[n-1][0] + Σ_{k = 1}^{n - 1} diff[n-1][k] * ((value - x[n-1]) ⋯ (value - x[n-k])) / k!`. -/
theorem evaluateNewtonGregoryBackward_formula (x : List ℚ) (diff : Table) (value : ℚ)
    (n : ℕ) (hn : 1 ≤ n) (hrows : diff.length = n) (hcols : ∀ row ∈ diff, row.length = n)
    (hx : x.length = n) :
    evaluateNewtonGregoryBackward x diff value =
      .ok (some (getCell diff (n - 1) 0 + ∑ k in Finset.Icc 1 (n - 1),
        getCell diff (n - 1) k * (∏ t in Finset.Icc 1 k, (value - x.getD (n - t) 0)) /
          (k.factorial : ℚ))) := by
  rw [evaluateNewtonGregoryBackward_eq_loop x diff value n hn ⟨hrows, hcols⟩,
    backwardLoop_spec x diff value n ⟨hrows, hcols⟩ (by omega) (n - 1) le_rfl]

/-- Witness of C9 on the backward table of `x = [0, 1, 2, 3]`, `y = [1, 2, 9, 28]` at
`value = 3 / 2`; the formula's value there is `35 / 8`. -/
theorem evaluateNewtonGregoryBackward_formula_witness :
    (1 ≤ 4 ∧ ([[1, 0, 0, 0], [2, 1, 0, 0], [9, 7, 6, 0], [28, 19, 12, 6]] : Table).length = 4 ∧
      (∀ row ∈ ([[1, 0, 0, 0], [2, 1, 0, 0], [9, 7, 6, 0], [28, 19, 12, 6]] : Table),
        row.length = 4) ∧ ([0, 1, 2, 3] : List ℚ).length = 4) ∧
    evaluateNewtonGregoryBackward [0, 1, 2, 3]
      [[1, 0, 0, 0], [2, 1, 0, 0], [9, 7, 6, 0], [28, 19, 12, 6]] (3 / 2) =
      .ok (some (35 / 8)) :=
  ⟨⟨by decide, by decide, by simp, by decide⟩, by
    rw [evaluateNewtonGregoryBackward_formula [0, 1, 2, 3]
      [[1, 0, 0, 0], [2, 1, 0, 0], [9, 7, 6, 0], [28, 19, 12, 6]] (3 / 2) 4 (by decide)
      (by decide) (by simp) (by decide)]
    norm_num [getCell, Finset.sum_Icc_succ_top, Finset.prod_Icc_succ_top, Nat.factorial]⟩

/-! ## The midpoint samplers -/

theorem factorial_of_le_one {num : ℤ} (h : num ≤ 1) : factorial num = 1 := by
  rw [factorial, if_pos h]

theorem factorial_of_one_lt {num : ℤ} (h : 1 < num) :
    factorial num = num * factorial (num - 1) := by
  rw [factorial, if_neg (by omega)]

/-- The midpoint loop with an evaluator that never throws pushes one result per counter
value. -/
theorem midPointsLoop_ok (evaluate : ℚ → Except JsError (Option ℚ)) (g : ℚ → Option ℚ)
    (hg : ∀ v, evaluate v = .ok (g v)) (x : List ℚ) (L : List ℕ) (acc : List (Option ℚ)) :
    midPointsLoop evaluate x L acc =
      .ok (acc ++ L.map (fun i => g ((x.getD i 0 + x.getD (i + 1) 0) / 2))) := by
  induction L generalizing acc with
  | nil => simp [midPointsLoop]
  | cons i L ih => simp [midPointsLoop, hg, ih]

theorem evaluateNewtonGregory_ok (x : List ℚ) (diff : Table) (h : diff ≠ []) :
    ∃ g : ℚ → Option ℚ, ∀ v, evaluateNewtonGregory x diff v = .ok (g v) := by
  obtain ⟨row, rest, rfl⟩ := List.exists_cons_of_ne_nil h
  exact ⟨fun v => ((List.range' 1 ((row :: rest).length - 1)).foldl
    (forwardStep x (row :: rest) v) { result := row[0]?, product := some 1 }).result,
    fun v => by simp only [evaluateNewtonGregory, List.getElem?_cons_zero]⟩

theorem evaluateNewtonGregoryBackward_ok (x : List ℚ) (diff : Table) (h : diff ≠ []) :
    ∃ g : ℚ → Option ℚ, ∀ v, evaluateNewtonGregoryBackward x diff v = .ok (g v) := by
  have hlen : diff.length - 1 < diff.length := by
    have := List.length_pos.2 h
    omega
  exact ⟨fun v => ((List.range' 1 (diff.length - 1)).foldl
    (backwardStep x diff v) { result := diff[diff.length - 1][0]?, product := some 1 }).result,
    fun v => by simp only [evaluateNewtonGregoryBackward, List.getElem?_eq_getElem hlen]⟩

/-- Both samplers, for an evaluator that never throws: the result has one entry per adjacent
pair and entry `i` is the evaluator's result at `(x[i] + x[i + 1]) / 2`. -/
theorem midPointsLoop_spec (evaluate : ℚ → Except JsError (Option ℚ)) (x : List ℚ)
    (h : (∃ g : ℚ → Option ℚ, ∀ v, evaluate v = .ok (g v)) ∨ x.length ≤ 1) :
    ∃ l, midPointsLoop evaluate x (List.range (x.length - 1)) [] = .ok l ∧
      l.length = x.length - 1 ∧ (x.length ≤ 1 → l = []) ∧
      ∀ i (hi : i + 1 < x.length), ∃ r, l[i]? = some r ∧
        evaluate ((x[i] + x[i + 1]) / 2) = .ok r := by
  rcases h with ⟨g, hg⟩ | h
  · refine ⟨_, midPointsLoop_ok evaluate g hg x _ [], by simp, ?_, ?_⟩
    · intro hx
      have : x.length - 1 = 0 := by omega
      simp [this]
    · intro i hi
      refine ⟨g ((x[i] + x[i + 1]) / 2), ?_, hg _⟩
      have h1 : i < x.length - 1 := by omega
      have h2 : i < x.length := by omega
      simp [List.getElem?_map, List.getElem?_range h1, List.getElem?_eq_getElem h2,
        List.getElem?_eq_getElem hi]
  · have : x.length - 1 = 0 := by omega
    refine ⟨[], by simp [this, midPointsLoop], by simp [this], fun _ => rfl, ?_⟩
    intro i hi
    omega

/-- C10, refuted as stated: on the table without rows and two abscissae the forward sampler
does not return a list, it throws the `TypeError` of `diff[0][0]`. -/
theorem midPoints_counterexample :
    evaluateNewtonGregoryMidPoints [0, 1] [] = .error .typeError ∧
    ¬ ∃ l, evaluateNewtonGregoryMidPoints [0, 1] [] = .ok l ∧
      l.length = ([0, 1] : List ℚ).length - 1 := by
  have h : evaluateNewtonGregoryMidPoints [0, 1] [] = .error .typeError := by
    simp [evaluateNewtonGregoryMidPoints, midPointsLoop, evaluateNewtonGregory, List.range,
      List.range.loop]
  refine ⟨h, ?_⟩
  rintro ⟨l, hl, -⟩
  rw [h] at hl
  cases hl

/-- C10, amended: for every `x` of length `n` and every table `diff` that has at least one
row (or any `diff` when `n ≤ 1`), `evaluateNewtonGregoryMidPoints(x, diff)` returns a list of
length `n - 1`, empty when `n ≤ 1`, whose `i`-th element for `i` in `[0, n - 2]` is the result
of `evaluateNewtonGregory(x, diff, (x[i] + x[i + 1]) / 2)`; the same holds for
`evaluateNewtonGregoryBackwardMidPoints` with `evaluateNewtonGregoryBackward`. -/
theorem midPoints_spec (x : List ℚ) (diff : Table) (h : diff ≠ [] ∨ x.length ≤ 1) :
    (∃ l, evaluateNewtonGregoryMidPoints x diff = .ok l ∧
      l.length = x.length - 1 ∧ (x.length ≤ 1 → l = []) ∧
      ∀ i (hi : i + 1 < x.length), ∃ r, l[i]? = some r ∧
        evaluateNewtonGregory x diff ((x[i] + x[i + 1]) / 2) = .ok r) ∧
    (∃ l, evaluateNewtonGregoryBackwardMidPoints x diff = .ok l ∧
      l.length = x.length - 1 ∧ (x.length ≤ 1 → l = []) ∧
      ∀ i (hi : i + 1 < x.length), ∃ r, l[i]? = some r ∧
        evaluateNewtonGregoryBackward x diff ((x[i] + x[i + 1]) / 2) = .ok r) :=
  ⟨midPointsLoop_spec (evaluateNewtonGregory x diff) x
      (h.imp (evaluateNewtonGregory_ok x diff) id),
    midPointsLoop_spec (evaluateNewtonGregoryBackward x diff) x
      (h.imp (evaluateNewtonGregoryBackward_ok x diff) id)⟩

/-- Witness of the amended C10 on `x = [0, 1]` and the table `[[1, 1], [2, 0]]`: the forward
sampler returns `[3 / 2]`. -/
theorem midPoints_spec_witness :
    (([[1, 1], [2, 0]] : Table) ≠ [] ∨ ([0, 1] : List ℚ).length ≤ 1) ∧
    evaluateNewtonGregoryMidPoints [0, 1] [[1, 1], [2, 0]] = .ok [some (3 / 2)] ∧
    ((∃ l, evaluateNewtonGregoryMidPoints [0, 1] [[1, 1], [2, 0]] = .ok l ∧
      l.length = ([0, 1] : List ℚ).length - 1 ∧ (([0, 1] : List ℚ).length ≤ 1 → l = []) ∧
      ∀ i (hi : i + 1 < ([0, 1] : List ℚ).length), ∃ r, l[i]? = some r ∧
        evaluateNewtonGregory [0, 1] [[1, 1], [2, 0]]
          ((([0, 1] : List ℚ)[i] + ([0, 1] : List ℚ)[i + 1]) / 2) = .ok r) ∧
    (∃ l, evaluateNewtonGregoryBackwardMidPoints [0, 1] [[1, 1], [2, 0]] = .ok l ∧
      l.length = ([0, 1] : List ℚ).length - 1 ∧ (([0, 1] : List ℚ).length ≤ 1 → l = []) ∧
      ∀ i (hi : i + 1 < ([0, 1] : List ℚ).length), ∃ r, l[i]? = some r ∧
        evaluateNewtonGregoryBackward [0, 1] [[1, 1], [2, 0]]
          ((([0, 1] : List ℚ)[i] + ([0, 1] : List ℚ)[i + 1]) / 2) = .ok r)) :=
  ⟨Or.inl (by simp), by
    simp [evaluateNewtonGregoryMidPoints, midPointsLoop, evaluateNewtonGregory, forwardStep,
      readCell, factorial_of_le_one, List.range, List.range.loop, List.range']
    norm_num,
    midPoints_spec [0, 1] [[1, 1], [2, 0]] (Or.inl (by simp))⟩

/-! ## Finite differences and binomial sums -/

/-- Pascal's rule under a sum. -/
theorem choose_sum_succ (a : ℕ → ℚ) (m : ℕ) :
    ∑ k in Finset.range (m + 2), ((m + 1).choose k : ℚ) * a k =
      ∑ k in Finset.range (m + 1), (m.choose k : ℚ) * a k +
      ∑ k in Finset.range (m + 1), (m.choose k : ℚ) * a (k + 1) := by
  rw [Finset.sum_range_succ' _ (m + 1)]
  simp only [Nat.choose_succ_succ, Nat.cast_add, add_mul, Finset.sum_add_distrib]
  rw [Finset.sum_range_succ' (fun k => (m.choose k : ℚ) * a k) m,
    Finset.sum_range_succ (fun k => (m.choose (k + 1) : ℚ) * a (k + 1)) m]
  simp [Nat.choose_succ_self]
  ring

/-- Gregory-Newton: a later sample is a binomial sum of the forward differences at `i`. -/
theorem delta_shift (y : List ℚ) (m i : ℕ) :
    delta y 0 (i + m) = ∑ k in Finset.range (m + 1), (m.choose k : ℚ) * delta y k i := by
  induction m generalizing i with
  | zero => simp
  | succ m ih =>
    rw [choose_sum_succ, ← Finset.sum_add_distrib]
    have h := ih (i + 1)
    rw [show i + 1 + m = i + (m + 1) by omega] at h
    rw [h]
    refine Finset.sum_congr rfl fun k _ => ?_
    simp only [delta]
    ring

/-- An earlier sample is an alternating binomial sum of the differences that end at `N`. -/
theorem delta_shift_back (y : List ℚ) (r N : ℕ) (h : r ≤ N) :
    delta y 0 (N - r) =
      ∑ k in Finset.range (r + 1), (r.choose k : ℚ) * ((-1) ^ k * delta y k (N - k)) := by
  induction r generalizing N with
  | zero => simp
  | succ r ih =>
    rw [choose_sum_succ, ← Finset.sum_add_distrib]
    have h1 := ih (N - 1) (by omega)
    rw [show N - 1 - r = N - (r + 1) by omega] at h1
    rw [h1]
    refine Finset.sum_congr rfl fun k hk => ?_
    have hk' : k < r + 1 := Finset.mem_range.1 hk
    have e1 : N - k = N - (k + 1) + 1 := by omega
    have e2 : N - 1 - k = N - (k + 1) := by omega
    rw [e2]
    simp only [delta, e1, pow_succ]
    ring

theorem prod_sub_eq_descFactorial (i k : ℕ) :
    ∏ t in Finset.range k, ((i : ℚ) - (t : ℚ)) = (i.descFactorial k : ℚ) := by
  induction k with
  | zero => simp
  | succ k ih =>
    rw [Finset.prod_range_succ, ih, Nat.descFactorial_succ]
    by_cases hk : k ≤ i
    · push_cast [Nat.cast_sub hk]
      ring
    · have h0 : i.descFactorial k = 0 := Nat.descFactorial_eq_zero_iff_lt.2 (by omega)
      simp [h0]

theorem prod_sub_div_factorial (i k : ℕ) :
    (∏ t in Finset.range k, ((i : ℚ) - (t : ℚ))) / (k.factorial : ℚ) = (i.choose k : ℚ) := by
  rw [prod_sub_eq_descFactorial, Nat.descFactorial_eq_factorial_mul_choose]
  have : (k.factorial : ℚ) ≠ 0 := by exact_mod_cast Nat.factorial_ne_zero k
  push_cast
  field_simp

theorem sum_range_eq_add_sum_Icc (f : ℕ → ℚ) (m : ℕ) :
    f 0 + ∑ k in Finset.Icc 1 m, f k = ∑ k in Finset.range (m + 1), f k := by
  induction m with
  | zero => simp
  | succ m ih => rw [Finset.sum_Icc_succ_top (by omega), Finset.sum_range_succ, ← ih, add_assoc]

theorem prod_Icc_eq_prod_range (f : ℕ → ℚ) (k : ℕ) :
    ∏ t in Finset.Icc 1 k, f t = ∏ t in Finset.range k, f (t + 1) := by
  induction k with
  | zero => simp
  | succ k ih => rw [Finset.prod_Icc_succ_top (by omega), Finset.prod_range_succ, ih]

/-! ## The evaluators on the tables of the builders -/

theorem unitSpaced_getD (x : List ℚ) (hx : UnitSpaced x) (i : ℕ) (hi : i < x.length) :
    x.getD i 0 = x.getD 0 0 + (i : ℚ) := by
  induction i with
  | zero => simp
  | succ i ih =>
    have h := hx i hi
    rw [List.getD_eq_getElem _ _ hi, h, ← List.getD_eq_getElem _ 0 (by omega : i < x.length),
      ih (by omega)]
    push_cast
    ring

/-- The forward evaluator on the forward table, as a Newton sum over the nodes `x[t]`. -/
theorem forward_eval_newtonSum (x y : List ℚ) (v : ℚ) (hn : 1 ≤ y.length)
    (hx : y.length - 1 ≤ x.length) :
    evaluateNewtonGregory x (newtonGregoryForward x y) v =
      .ok (some (newtonSum (fun k => delta y k 0 / (k.factorial : ℚ))
        (fun t => x.getD t 0) y.length v)) := by
  rw [evaluateNewtonGregory_eq_loop x _ v y.length hn (square_forward x y),
    forwardLoop_spec x _ v y.length (square_forward x y) hx (y.length - 1) le_rfl]
  have h := sum_range_eq_add_sum_Icc (fun k => getCell (newtonGregoryForward x y) 0 k *
    (∏ t in Finset.range k, (v - x.getD t 0)) / (k.factorial : ℚ)) (y.length - 1)
  simp only [Finset.range_zero, Finset.prod_empty, mul_one, Nat.factorial_zero, Nat.cast_one,
    div_one] at h
  rw [h, show y.length - 1 + 1 = y.length by omega]
  unfold newtonSum
  refine congrArg (fun q => Except.ok (some q)) (Finset.sum_congr rfl fun k hk => ?_)
  have hk' : 0 + k < y.length := by simpa using Finset.mem_range.1 hk
  rw [getCell_forward, if_pos hk']
  ring

/-- The backward evaluator on the backward table, as a Newton sum over the nodes
`x[n - 1 - t]`. -/
theorem backward_eval_newtonSum (x y : List ℚ) (v : ℚ) (hn : 1 ≤ y.length)
    (hx : y.length ≤ x.length) :
    evaluateNewtonGregoryBackward x (newtonGregoryBackward x y) v =
      .ok (some (newtonSum (fun k => delta y k (y.length - 1 - k) / (k.factorial : ℚ))
        (fun t => x.getD (y.length - (t + 1)) 0) y.length v)) := by
  rw [evaluateNewtonGregoryBackward_eq_loop x _ v y.length hn (square_backward x y),
    backwardLoop_spec x _ v y.length (square_backward x y) hx (y.length - 1) le_rfl]
  have h := sum_range_eq_add_sum_Icc (fun k => getCell (newtonGregoryBackward x y)
    (y.length - 1) k * (∏ t in Finset.Icc 1 k, (v - x.getD (y.length - t) 0)) /
      (k.factorial : ℚ)) (y.length - 1)
  simp only [Finset.Icc_self, Finset.prod_empty, mul_one, Nat.factorial_zero, Nat.cast_one,
    div_one, show Finset.Icc 1 0 = (∅ : Finset ℕ) from rfl] at h
  rw [h, show y.length - 1 + 1 = y.length by omega]
  unfold newtonSum
  refine congrArg (fun q => Except.ok (some q)) (Finset.sum_congr rfl fun k hk => ?_)
  have hk' : k ≤ y.length - 1 ∧ y.length - 1 < y.length := by
    have := Finset.mem_range.1 hk
    omega
  rw [getCell_backward, if_pos hk', prod_Icc_eq_prod_range]
  ring

/-- On unit-spaced nodes starting at `x0` the forward Newton sum reproduces sample `i`. -/
theorem forward_newtonSum_node (y : List ℚ) (x0 : ℚ) (i : ℕ) (hi : i < y.length) :
    newtonSum (fun k => delta y k 0 / (k.factorial : ℚ)) (fun t => x0 + (t : ℚ)) y.length
      (x0 + (i : ℚ)) = y.getD i 0 := by
  unfold newtonSum
  have hterm : ∀ k, delta y k 0 / (k.factorial : ℚ) *
      ∏ t in Finset.range k, (x0 + (i : ℚ) - (x0 + (t : ℚ))) =
      (i.choose k : ℚ) * delta y k 0 := by
    intro k
    have e : ∏ t in Finset.range k, (x0 + (i : ℚ) - (x0 + (t : ℚ))) =
        ∏ t in Finset.range k, ((i : ℚ) - (t : ℚ)) :=
      Finset.prod_congr rfl fun t _ => by ring
    rw [e, ← prod_sub_div_factorial i k]
    ring
  simp only [hterm]
  have hsub : Finset.range (i + 1) ⊆ Finset.range y.length :=
    Finset.range_subset.2 (by omega)
  have hzero : ∀ k ∈ Finset.range y.length, k ∉ Finset.range (i + 1) →
      (i.choose k : ℚ) * delta y k 0 = 0 := by
    intro k _ hk
    have : i < k := by
      have := Finset.mem_range.not.1 hk
      omega
    simp [Nat.choose_eq_zero_of_lt this]
  rw [← Finset.sum_subset hsub hzero, ← delta_shift y i 0]
  simp [delta]

/-- On unit-spaced nodes starting at `x0` the backward Newton sum reproduces sample `i`. -/
theorem backward_newtonSum_node (y : List ℚ) (x0 : ℚ) (i : ℕ) (hi : i < y.length) :
    newtonSum (fun k => delta y k (y.length - 1 - k) / (k.factorial : ℚ))
      (fun t => x0 + ((y.length - (t + 1) : ℕ) : ℚ)) y.length (x0 + (i : ℚ)) = y.getD i 0 := by
  unfold newtonSum
  have hterm : ∀ k ∈ Finset.range y.length, delta y k (y.length - 1 - k) / (k.factorial : ℚ) *
      ∏ t in Finset.range k, (x0 + (i : ℚ) - (x0 + ((y.length - (t + 1) : ℕ) : ℚ))) =
      ((y.length - 1 - i).choose k : ℚ) * ((-1) ^ k * delta y k (y.length - 1 - k)) := by
    intro k hk
    have hk' : k < y.length := Finset.mem_range.1 hk
    have e : ∏ t in Finset.range k, (x0 + (i : ℚ) - (x0 + ((y.length - (t + 1) : ℕ) : ℚ))) =
        ∏ t in Finset.range k, ((-1) * (((y.length - 1 - i : ℕ) : ℚ) - (t : ℚ))) := by
      refine Finset.prod_congr rfl fun t ht => ?_
      have ht' : t < k := Finset.mem_range.1 ht
      rw [Nat.cast_sub (by omega : t + 1 ≤ y.length),
        Nat.cast_sub (by omega : i ≤ y.length - 1), Nat.cast_sub (by omega : 1 ≤ y.length)]
      push_cast
      ring
    rw [e, Finset.prod_mul_distrib, Finset.prod_const, Finset.card_range,
      ← prod_sub_div_factorial (y.length - 1 - i) k]
    ring
  rw [Finset.sum_congr rfl hterm]
  have hsub : Finset.range (y.length - 1 - i + 1) ⊆ Finset.range y.length :=
    Finset.range_subset.2 (by omega)
  have hzero : ∀ k ∈ Finset.range y.length, k ∉ Finset.range (y.length - 1 - i + 1) →
      ((y.length - 1 - i).choose k : ℚ) * ((-1) ^ k * delta y k (y.length - 1 - k)) = 0 := by
    intro k _ hk
    have : y.length - 1 - i < k := by
      have := Finset.mem_range.not.1 hk
      omega
    simp [Nat.choose_eq_zero_of_lt this]
  rw [← Finset.sum_subset hsub hzero,
    ← delta_shift_back y (y.length - 1 - i) (y.length - 1) (by omega),
    show y.length - 1 - (y.length - 1 - i) = i by omega]
  simp [delta]

/-! ## Newton sums as polynomials -/

theorem newtonSum_congr (c a b : ℕ → ℚ) (n : ℕ) (v : ℚ) (h : ∀ t, t + 1 < n → a t = b t) :
    newtonSum c a n v = newtonSum c b n v := by
  unfold newtonSum
  refine Finset.sum_congr rfl fun k hk => ?_
  have hk' := Finset.mem_range.1 hk
  congr 1
  refine Finset.prod_congr rfl fun t ht => ?_
  have ht' := Finset.mem_range.1 ht
  rw [h t (by omega)]

/-- A Newton sum with `n` terms is the value of a polynomial of degree below `n`. -/
theorem newtonSum_poly (c a : ℕ → ℚ) (n : ℕ) :
    ∃ P : Polynomial ℚ, P.degree < (n : WithBot ℕ) ∧ ∀ v, P.eval v = newtonSum c a n v := by
  refine ⟨∑ k in Finset.range n, Polynomial.C (c k) *
    ∏ t in Finset.range k, (Polynomial.X - Polynomial.C (a t)), ?_, ?_⟩
  · rw [← Polynomial.mem_degreeLT]
    refine Submodule.sum_mem _ fun k hk => ?_
    rw [Polynomial.mem_degreeLT]
    have hprod : (∏ t in Finset.range k, (Polynomial.X - Polynomial.C (a t))).degree =
        (k : WithBot ℕ) := by
      rw [Polynomial.degree_prod]
      simp [Polynomial.degree_X_sub_C]
    calc (Polynomial.C (c k) * ∏ t in Finset.range k,
            (Polynomial.X - Polynomial.C (a t))).degree
        ≤ (Polynomial.C (c k)).degree +
            (∏ t in Finset.range k, (Polynomial.X - Polynomial.C (a t))).degree :=
          Polynomial.degree_mul_le _ _
      _ ≤ 0 + (k : WithBot ℕ) := add_le_add Polynomial.degree_C_le (le_of_eq hprod)
      _ < (n : WithBot ℕ) := by
          rw [zero_add]
          exact_mod_cast Finset.mem_range.1 hk
  · intro v
    simp [newtonSum, Polynomial.eval_finset_sum, Polynomial.eval_prod]

/-- A polynomial of degree below `n` that agrees with a Newton sum of `n` terms on the `n`
nodes `x0, x0 + 1, …, x0 + n - 1` agrees with it everywhere. -/
theorem eval_eq_newtonSum (p : Polynomial ℚ) (n : ℕ) (hp : p.degree < (n : WithBot ℕ))
    (c a : ℕ → ℚ) (x0 : ℚ)
    (h : ∀ i, i < n → p.eval (x0 + (i : ℚ)) = newtonSum c a n (x0 + (i : ℚ))) (v : ℚ) :
    p.eval v = newtonSum c a n v := by
  obtain ⟨P, hP, hPv⟩ := newtonSum_poly c a n
  have hinj : Set.InjOn (fun i : ℕ => x0 + (i : ℚ)) (Finset.range n : Set ℕ) := by
    intro i _ j _ hij
    simpa using hij
  have heq : p = P := by
    refine Polynomial.eq_of_degrees_lt_of_eval_index_eq (Finset.range n) hinj
      (by simpa using hp) (by simpa using hP) fun i hi => ?_
    rw [hPv]
    exact h i (Finset.mem_range.1 hi)
  rw [heq, hPv]

/-- Two Newton sums of `n` terms that agree on `n` consecutive nodes agree everywhere. -/
theorem newtonSum_eq_of_nodes (c a c' a' : ℕ → ℚ) (n : ℕ) (x0 : ℚ)
    (h : ∀ i, i < n → newtonSum c a n (x0 + (i : ℚ)) = newtonSum c' a' n (x0 + (i : ℚ)))
    (v : ℚ) : newtonSum c a n v = newtonSum c' a' n v := by
  obtain ⟨P, hP, hPv⟩ := newtonSum_poly c a n
  rw [← hPv, eval_eq_newtonSum P n hP c' a' x0 (fun i hi => by rw [hPv, h i hi]) v]

/-- The forward evaluator on the forward table, for unit-spaced abscissae. -/
theorem forward_eval_unit (x y : List ℚ) (v : ℚ) (hx : UnitSpaced x)
    (hlen : x.length = y.length) (hn : 1 ≤ y.length) :
    evaluateNewtonGregory x (newtonGregoryForward x y) v =
      .ok (some (newtonSum (fun k => delta y k 0 / (k.factorial : ℚ))
        (fun t => x.getD 0 0 + (t : ℚ)) y.length v)) := by
  rw [forward_eval_newtonSum x y v hn (by omega)]
  refine congrArg (fun q => Except.ok (some q)) (newtonSum_congr _ _ _ _ _ fun t ht => ?_)
  exact unitSpaced_getD x hx t (by omega)

/-- The backward evaluator on the backward table, for unit-spaced abscissae. -/
theorem backward_eval_unit (x y : List ℚ) (v : ℚ) (hx : UnitSpaced x)
    (hlen : x.length = y.length) (hn : 1 ≤ y.length) :
    evaluateNewtonGregoryBackward x (newtonGregoryBackward x y) v =
      .ok (some (newtonSum (fun k => delta y k (y.length - 1 - k) / (k.factorial : ℚ))
        (fun t => x.getD 0 0 + ((y.length - (t + 1) : ℕ) : ℚ)) y.length v)) := by
  rw [backward_eval_newtonSum x y v hn (by omega)]
  refine congrArg (fun q => Except.ok (some q)) (newtonSum_congr _ _ _ _ _ fun t ht => ?_)
  exact unitSpaced_getD x hx _ (by omega)

/-- For unit-spaced abscissae the two evaluators return the same number at every `v`. -/
theorem forward_eq_backward_unit (x y : List ℚ) (v : ℚ) (hx : UnitSpaced x)
    (hlen : x.length = y.length) (hn : 1 ≤ y.length) :
    evaluateNewtonGregory x (newtonGregoryForward x y) v =
      evaluateNewtonGregoryBackward x (newtonGregoryBackward x y) v := by
  rw [forward_eval_unit x y v hx hlen hn, backward_eval_unit x y v hx hlen hn]
  refine congrArg (fun q => Except.ok (some q))
    (newtonSum_eq_of_nodes _ _ _ _ y.length (x.getD 0 0) (fun i hi => ?_) v)
  rw [forward_newtonSum_node y _ i hi, backward_newtonSum_node y _ i hi]

/-- For unit-spaced abscissae the forward evaluator returns sample `i` at `x[i]`. -/
theorem forward_eval_node (x y : List ℚ) (i : ℕ) (hx : UnitSpaced x)
    (hlen : x.length = y.length) (hi : i < y.length) :
    evaluateNewtonGregory x (newtonGregoryForward x y) (x.getD i 0) =
      .ok (some (y.getD i 0)) := by
  rw [forward_eval_unit x y _ hx hlen (by omega), unitSpaced_getD x hx i (by omega),
    forward_newtonSum_node y _ i hi]

/-! ## Interpolation -/

theorem forward_table_scenario :
    newtonGregoryForward [0, 1, 2, 3] [1, 2, 9, 28] =
      [[1, 1, 6, 6], [2, 7, 12, 0], [9, 19, 0, 0], [28, 0, 0, 0]] := by
  simp [newtonGregoryForward, initColumn, zeroTable, forwardColumn, forwardCell, setCell,
    getCell, List.range, List.range.loop, List.range', List.replicate]
  norm_num

theorem unitSpaced_scenario : UnitSpaced [0, 1, 2, 3] := by
  intro i h
  have hi : i < 3 := by
    have h3 := h
    simp only [List.length_cons, List.length_nil] at h3
    omega
  interval_cases i <;> norm_num

/-- C1, the defect at an evenly spaced input: for `x = [0, 2]`, `y = [0, 2]` the forward
table is `[[0, 2], [2, 0]]` and the forward evaluator returns `4` at `x[1] = 2`, where the
sample is `y[1] = 2`: the loop adds `diff[0][1] * (value - x[0]) / 1!` and never divides
term `k` by the `k`-th power of the step `x[1] - x[0]`. -/
theorem forward_reproduces_samples_failing_input :
    newtonGregoryForward [0, 2] [0, 2] = [[0, 2], [2, 0]] ∧
    ([0, 2] : List ℚ)[1] = 2 ∧
    evaluateNewtonGregory [0, 2] (newtonGregoryForward [0, 2] [0, 2]) 2 = .ok (some 4) ∧
    ¬ |(4 : ℚ) - 2| ≤ 1 / 10 ^ 9 := by
  refine ⟨?_, rfl, ?_, by norm_num⟩
  · simp [newtonGregoryForward, initColumn, zeroTable, forwardColumn, forwardCell, setCell,
      getCell, List.range, List.range.loop, List.range', List.replicate]
  · simp [evaluateNewtonGregory, forwardStep, readCell, newtonGregoryForward, initColumn,
      zeroTable, forwardColumn, forwardCell, setCell, getCell, factorial_of_le_one, List.range,
      List.range.loop, List.range', List.replicate]
    norm_num

/-- C2, the defect at an evenly spaced input: for the strictly increasing `x = [0, 2]` with
`y = [0, 2]`, at the non-sample value `1` the forward evaluator returns `2` and the backward
evaluator returns `0`: neither loop divides term `k` by the `k`-th power of the step
`x[1] - x[0]`. -/
theorem forward_backward_agree_failing_input :
    List.Pairwise (fun a b => a < b) ([0, 2] : List ℚ) ∧ (1 : ℚ) ∉ ([0, 2] : List ℚ) ∧
    evaluateNewtonGregory [0, 2] (newtonGregoryForward [0, 2] [0, 2]) 1 = .ok (some 2) ∧
    evaluateNewtonGregoryBackward [0, 2] (newtonGregoryBackward [0, 2] [0, 2]) 1 =
      .ok (some 0) ∧
    ¬ |(2 : ℚ) - 0| ≤ 1 / 10 ^ 9 := by
  refine ⟨by simp, by simp, ?_, ?_, by norm_num⟩
  · simp [evaluateNewtonGregory, forwardStep, readCell, newtonGregoryForward, initColumn,
      zeroTable, forwardColumn, forwardCell, setCell, getCell, factorial_of_le_one, List.range,
      List.range.loop, List.range', List.replicate]
  · simp [evaluateNewtonGregoryBackward, backwardStep, readCell, newtonGregoryBackward,
      initColumn, zeroTable, backwardColumn, backwardCell, setCell, getCell,
      factorial_of_le_one, List.range, List.range.loop, List.range', List.replicate]
    norm_num

/-- C3: for unit-spaced samples the forward evaluator computes the unique interpolating
polynomial. For every `n ≥ 1`, every `x` of length `n` with `x[i + 1] = x[i] + 1` and every
`y` of length `n` there is a polynomial `p` of degree below `n` with `p(x[i]) = y[i]` for all
`i < n`, it is the only one, and `evaluateNewtonGregory(x, newtonGregoryForward(x, y), v)`
returns `p(v)` at every query `v`. -/
theorem forward_is_interpolant (x y : List ℚ) (n : ℕ) (hn : 1 ≤ n) (hxn : x.length = n)
    (hyn : y.length = n) (hx : UnitSpaced x) :
    ∃ p : Polynomial ℚ,
      (p.degree < (n : WithBot ℕ) ∧ ∀ i (hi : i < n), p.eval x[i] = y[i]) ∧
      (∀ q : Polynomial ℚ, q.degree < (n : WithBot ℕ) →
        (∀ i (hi : i < n), q.eval x[i] = y[i]) → q = p) ∧
      ∀ v, evaluateNewtonGregory x (newtonGregoryForward x y) v = .ok (some (p.eval v)) := by
  subst hyn
  obtain ⟨p, hp, hpv⟩ := newtonSum_poly (fun k => delta y k 0 / (k.factorial : ℚ))
    (fun t => x.getD 0 0 + (t : ℚ)) y.length
  have hnode : ∀ i (hi : i < y.length), x[i] = x.getD 0 0 + (i : ℚ) := fun i hi => by
    rw [← unitSpaced_getD x hx i (by omega), List.getD_eq_getElem _ _ (by omega)]
  refine ⟨p, ⟨hp, fun i hi => ?_⟩, fun q hq hqi => ?_, fun v => ?_⟩
  · rw [hpv, hnode i hi, forward_newtonSum_node y _ i hi, List.getD_eq_getElem _ _ hi]
  · refine Polynomial.funext fun v => ?_
    rw [hpv]
    refine eval_eq_newtonSum q y.length hq _ _ (x.getD 0 0) (fun i hi => ?_) v
    rw [← hnode i hi, hqi i hi, hnode i hi, forward_newtonSum_node y _ i hi,
      List.getD_eq_getElem _ _ hi]
  · rw [hpv, forward_eval_unit x y v hx hxn hn]

/-- Witness of C3 on the specification's scenario `x = [0, 1, 2, 3]`, `y = [1, 2, 9, 28]`:
the evaluator returns `35 / 8` at `v = 3 / 2`, the value of the interpolating cubic. -/
theorem forward_is_interpolant_witness :
    (1 ≤ 4 ∧ ([0, 1, 2, 3] : List ℚ).length = 4 ∧ ([1, 2, 9, 28] : List ℚ).length = 4 ∧
      UnitSpaced [0, 1, 2, 3]) ∧
    evaluateNewtonGregory [0, 1, 2, 3] (newtonGregoryForward [0, 1, 2, 3] [1, 2, 9, 28])
      (3 / 2) = .ok (some (35 / 8)) ∧
    ∃ p : Polynomial ℚ,
      (p.degree < ((4 : ℕ) : WithBot ℕ) ∧
        ∀ i (hi : i < 4), p.eval ([0, 1, 2, 3] : List ℚ)[i] = ([1, 2, 9, 28] : List ℚ)[i]) ∧
      (∀ q : Polynomial ℚ, q.degree < ((4 : ℕ) : WithBot ℕ) →
        (∀ i (hi : i < 4), q.eval ([0, 1, 2, 3] : List ℚ)[i] = ([1, 2, 9, 28] : List ℚ)[i]) →
        q = p) ∧
      ∀ v, evaluateNewtonGregory [0, 1, 2, 3]
        (newtonGregoryForward [0, 1, 2, 3] [1, 2, 9, 28]) v = .ok (some (p.eval v)) :=
  ⟨⟨by decide, rfl, rfl, unitSpaced_scenario⟩, by
    rw [forward_table_scenario]
    simp [evaluateNewtonGregory, forwardStep, readCell, factorial_of_le_one,
      factorial_of_one_lt, List.range']
    norm_num,
    forward_is_interpolant [0, 1, 2, 3] [1, 2, 9, 28] 4 (by decide) rfl rfl
      unitSpaced_scenario⟩

/-! ## The orchestrators -/

theorem calculateNewtonGregory_error_of_length_eq (x y : List ℚ) (value : ℚ)
    (h : x.length = y.length) :
    (calculateNewtonGregory x y value).error ≠ some .lengthMismatch := by
  unfold calculateNewtonGregory
  rw [if_neg (not_not.2 h)]
  cases h1 : evaluateNewtonGregory x (newtonGregoryForward x y) value with
  | error e => simp [h1]
  | ok r =>
    cases h2 : evaluateNewtonGregoryMidPoints x (newtonGregoryForward x y) with
    | error e => simp [h1, h2]
    | ok m => simp [h1, h2]

theorem calculateNewtonGregoryBackward_error_of_length_eq (x y : List ℚ) (value : ℚ)
    (h : x.length = y.length) :
    (calculateNewtonGregoryBackward x y value).error ≠ some .lengthMismatch := by
  unfold calculateNewtonGregoryBackward
  rw [if_neg (not_not.2 h)]
  cases h1 : evaluateNewtonGregoryBackward x (newtonGregoryBackward x y) value with
  | error e => simp [h1]
  | ok r =>
    cases h2 : evaluateNewtonGregoryBackwardMidPoints x (newtonGregoryBackward x y) with
    | error e => simp [h1, h2]
    | ok m => simp [h1, h2]

/-- C11: length validation. Each orchestrator ends with the length-mismatch failure if and
only if `x.length ≠ y.length`, and in that case it has built no table and produced no
evaluation result and no midpoints. -/
theorem length_validation (x y : List ℚ) (value : ℚ) :
    (((calculateNewtonGregory x y value).error = some .lengthMismatch ↔ x.length ≠ y.length) ∧
      (x.length ≠ y.length → calculateNewtonGregory x y value =
        { diff := none, result := none, midPoints := none, error := some .lengthMismatch })) ∧
    (((calculateNewtonGregoryBackward x y value).error = some .lengthMismatch ↔
        x.length ≠ y.length) ∧
      (x.length ≠ y.length → calculateNewtonGregoryBackward x y value =
        { diff := none, result := none, midPoints := none, error := some .lengthMismatch })) := by
  refine ⟨⟨⟨fun h => ?_, fun h => ?_⟩, fun h => ?_⟩, ⟨⟨fun h => ?_, fun h => ?_⟩, fun h => ?_⟩⟩
  · exact fun heq => calculateNewtonGregory_error_of_length_eq x y value heq h
  · simp [calculateNewtonGregory, h]
  · simp [calculateNewtonGregory, h]
  · exact fun heq => calculateNewtonGregoryBackward_error_of_length_eq x y value heq h
  · simp [calculateNewtonGregoryBackward, h]
  · simp [calculateNewtonGregoryBackward, h]

/-- Witness of C11 on the specification's scenario `x = [1, 2, 3]`, `y = [1, 2]`. -/
theorem length_validation_witness :
    ([1, 2, 3] : List ℚ).length ≠ ([1, 2] : List ℚ).length ∧
    calculateNewtonGregory [1, 2, 3] [1, 2] 0 =
      { diff := none, result := none, midPoints := none, error := some .lengthMismatch } ∧
    calculateNewtonGregoryBackward [1, 2, 3] [1, 2] 0 =
      { diff := none, result := none, midPoints := none, error := some .lengthMismatch } :=
  ⟨by decide, (length_validation [1, 2, 3] [1, 2] 0).1.2 (by decide),
    (length_validation [1, 2, 3] [1, 2] 0).2.2 (by decide)⟩

/-- C12: single-sample input. For `x = [a]` and `y = [b]` the forward table is `[[b]]`, the
forward evaluator on it returns `b` at every query value, and the forward sampler on it
returns the empty list. -/
theorem single_sample (a b v : ℚ) :
    newtonGregoryForward [a] [b] = [[b]] ∧
    evaluateNewtonGregory [a] (newtonGregoryForward [a] [b]) v = .ok (some b) ∧
    evaluateNewtonGregoryMidPoints [a] (newtonGregoryForward [a] [b]) = .ok [] := by
  have h : newtonGregoryForward [a] [b] = [[b]] := by
    simp [newtonGregoryForward, initColumn, zeroTable, setCell, List.range, List.range.loop,
      List.replicate]
  rw [h]
  refine ⟨rfl, ?_, ?_⟩
  · simp [evaluateNewtonGregory]
  · simp [evaluateNewtonGregoryMidPoints, midPointsLoop]

/-- Witness of C12 on the specification's scenario `x = [5]`, `y = [10]`, queried at `7`. -/
theorem single_sample_witness :
    newtonGregoryForward [5] [10] = [[10]] ∧
    evaluateNewtonGregory [5] (newtonGregoryForward [5] [10]) 7 = .ok (some 10) ∧
    evaluateNewtonGregoryMidPoints [5] (newtonGregoryForward [5] [10]) = .ok [] :=
  single_sample 5 10 7

theorem parseInput_ne_nil (number : String → Option ℚ) (input : String) :
    parseInput number input ≠ [] := by
  unfold parseInput
  intro h
  exact List.splitOnP_ne_nil _ _ (List.map_eq_nil_iff.1 h)

theorem parseInput_empty (number : String → Option ℚ) :
    parseInput number "" = [number ""] := by
  simp [parseInput, List.splitOn_nil]

/-- On non-empty arrays of equal length the forward orchestrator runs to its end. -/
theorem calculateNewtonGregory_complete (x y : List ℚ) (value : ℚ) (hx : x ≠ [])
    (hlen : x.length = y.length) :
    (calculateNewtonGregory x y value).error = none ∧
    (calculateNewtonGregory x y value).diff = some (newtonGregoryForward x y) := by
  have hn : 1 ≤ y.length := by
    have := List.length_pos.2 hx
    omega
  have hsq := square_forward x y
  have hne : newtonGregoryForward x y ≠ [] := by
    intro h
    have := hsq.1
    rw [h] at this
    simp at this
    omega
  have h1 := evaluateNewtonGregory_eq_loop x (newtonGregoryForward x y) value y.length hn hsq
  obtain ⟨l, h2, -⟩ := midPointsLoop_spec (evaluateNewtonGregory x (newtonGregoryForward x y)) x
    (Or.inl (evaluateNewtonGregory_ok x _ hne))
  unfold calculateNewtonGregory
  rw [if_neg (not_not.2 hlen)]
  simp [h1, evaluateNewtonGregoryMidPoints, h2]

/-- On non-empty arrays of equal length the backward orchestrator runs to its end. -/
theorem calculateNewtonGregoryBackward_complete (x y : List ℚ) (value : ℚ) (hx : x ≠ [])
    (hlen : x.length = y.length) :
    (calculateNewtonGregoryBackward x y value).error = none ∧
    (calculateNewtonGregoryBackward x y value).diff = some (newtonGregoryBackward x y) := by
  have hn : 1 ≤ y.length := by
    have := List.length_pos.2 hx
    omega
  have hsq := square_backward x y
  have hne : newtonGregoryBackward x y ≠ [] := by
    intro h
    have := hsq.1
    rw [h] at this
    simp at this
    omega
  have h1 := evaluateNewtonGregoryBackward_eq_loop x (newtonGregoryBackward x y) value
    y.length hn hsq
  obtain ⟨l, h2, -⟩ := midPointsLoop_spec
    (evaluateNewtonGregoryBackward x (newtonGregoryBackward x y)) x
    (Or.inl (evaluateNewtonGregoryBackward_ok x _ hne))
  unfold calculateNewtonGregoryBackward
  rw [if_neg (not_not.2 hlen)]
  simp [h1, evaluateNewtonGregoryBackwardMidPoints, h2]

theorem calculateNewtonGregory_zero (value : ℚ) :
    calculateNewtonGregory [0] [0] value =
      { diff := some [[0]], result := some (some 0), midPoints := some [], error := none } := by
  simp [calculateNewtonGregory, newtonGregoryForward, initColumn, zeroTable, setCell,
    evaluateNewtonGregory, evaluateNewtonGregoryMidPoints, midPointsLoop, List.range,
    List.range.loop, List.replicate]

theorem calculateNewtonGregoryBackward_zero (value : ℚ) :
    calculateNewtonGregoryBackward [0] [0] value =
      { diff := some [[0]], result := some (some 0), midPoints := some [], error := none } := by
  simp [calculateNewtonGregoryBackward, newtonGregoryBackward, initColumn, zeroTable, setCell,
    evaluateNewtonGregoryBackward, evaluateNewtonGregoryBackwardMidPoints, midPointsLoop,
    List.range, List.range.loop, List.replicate]

/-- C13, refuted as stated: empty input is not rejected. The empty text splits into one
field, so with `Number('') = 0` empty text fields parse to `x = [0]`, `y = [0]`; on these
arrays neither orchestrator ends in a failure: the builder is called and returns `[[0]]`,
the evaluator returns `0` and the sampler returns no midpoints. -/
theorem empty_input_counterexample :
    ("".data.splitOn ',') = [[]] ∧
    calculateNewtonGregory [0] [0] 0 =
      { diff := some [[0]], result := some (some 0), midPoints := some [], error := none } ∧
    calculateNewtonGregoryBackward [0] [0] 0 =
      { diff := some [[0]], result := some (some 0), midPoints := some [], error := none } := by
  exact ⟨List.splitOn_nil _, calculateNewtonGregory_zero 0,
    calculateNewtonGregoryBackward_zero 0⟩

/-- C13, amended: the orchestrators do not reject empty input, they check the lengths only.
`parseInput` returns at least one element for every input string (for the empty string the
single element `Number('')`), so `x` and `y` are never empty and the builder and the
evaluators are never run on an empty sequence; for non-empty `x` and `y` of equal length
both orchestrators call their builder and end without a failure; on `x = [0]`, `y = [0]`,
the arrays that empty text fields parse to, they return the table `[[0]]`, the result `0` and
no midpoints. -/
theorem empty_input :
    (∀ (number : String → Option ℚ) (input : String), parseInput number input ≠ []) ∧
    (∀ number : String → Option ℚ, parseInput number "" = [number ""]) ∧
    (∀ (x y : List ℚ) (value : ℚ), x ≠ [] → x.length = y.length →
      ((calculateNewtonGregory x y value).error = none ∧
        (calculateNewtonGregory x y value).diff = some (newtonGregoryForward x y)) ∧
      ((calculateNewtonGregoryBackward x y value).error = none ∧
        (calculateNewtonGregoryBackward x y value).diff = some (newtonGregoryBackward x y))) ∧
    (∀ value : ℚ,
      calculateNewtonGregory [0] [0] value =
        { diff := some [[0]], result := some (some 0), midPoints := some [], error := none } ∧
      calculateNewtonGregoryBackward [0] [0] value =
        { diff := some [[0]], result := some (some 0), midPoints := some [], error := none }) :=
  ⟨parseInput_ne_nil, parseInput_empty,
    fun x y value hx hlen => ⟨calculateNewtonGregory_complete x y value hx hlen,
      calculateNewtonGregoryBackward_complete x y value hx hlen⟩,
    fun value => ⟨calculateNewtonGregory_zero value, calculateNewtonGregoryBackward_zero value⟩⟩

/-- Witness of the amended C13 on `x = [5]`, `y = [10]` and the query value `7`. -/
theorem empty_input_witness :
    (([5] : List ℚ) ≠ [] ∧ ([5] : List ℚ).length = ([10] : List ℚ).length) ∧
    ((calculateNewtonGregory [5] [10] 7).error = none ∧
      (calculateNewtonGregory [5] [10] 7).diff = some (newtonGregoryForward [5] [10])) ∧
    ((calculateNewtonGregoryBackward [5] [10] 7).error = none ∧
      (calculateNewtonGregoryBackward [5] [10] 7).diff =
        some (newtonGregoryBackward [5] [10])) :=
  ⟨⟨by simp, rfl⟩, empty_input.2.2.1 [5] [10] 7 (by simp) rfl⟩

/-! ## Shape of the tables, safety of the evaluators -/

/-- C14: table shape. For every `y` of length `n` both builders return exactly `n` rows of
exactly `n` entries, and every cell outside the triangle is `0`: in the forward table
`T[i][j] = 0` whenever `j ≥ 1` and `i + j ≥ n`, in the backward table `T[i][j] = 0` whenever
`i < j`. -/
theorem table_shape (x y : List ℚ) :
    ((newtonGregoryForward x y).length = y.length ∧
      ∀ row ∈ newtonGregoryForward x y, row.length = y.length) ∧
    ((newtonGregoryBackward x y).length = y.length ∧
      ∀ row ∈ newtonGregoryBackward x y, row.length = y.length) ∧
    (∀ i j, i < y.length → j < y.length → 1 ≤ j → y.length ≤ i + j →
      readCell (newtonGregoryForward x y) i j = some 0) ∧
    (∀ i j, i < y.length → j < y.length → i < j →
      readCell (newtonGregoryBackward x y) i j = some 0) := by
  refine ⟨square_forward x y, square_backward x y, fun i j hi hj _ hij => ?_,
    fun i j hi hj hij => ?_⟩
  · rw [readCell_eq_getCell (square_forward x y) hi hj, getCell_forward, if_neg (by omega)]
  · rw [readCell_eq_getCell (square_backward x y) hi hj, getCell_backward, if_neg (by omega)]

/-- Witness of C14 on `y = [1, 2, 9, 28]`: the forward cell of row 2, order 2 and the
backward cell of row 1, order 2 are `0`. -/
theorem table_shape_witness :
    (2 < ([1, 2, 9, 28] : List ℚ).length ∧ 1 ≤ 2 ∧ ([1, 2, 9, 28] : List ℚ).length ≤ 2 + 2 ∧
      1 < ([1, 2, 9, 28] : List ℚ).length ∧ 1 < 2) ∧
    readCell (newtonGregoryForward [0, 1, 2, 3] [1, 2, 9, 28]) 2 2 = some 0 ∧
    readCell (newtonGregoryBackward [0, 1, 2, 3] [1, 2, 9, 28]) 1 2 = some 0 :=
  ⟨by decide,
    (table_shape [0, 1, 2, 3] [1, 2, 9, 28]).2.2.1 2 2 (by decide) (by decide) (by decide)
      (by decide),
    (table_shape [0, 1, 2, 3] [1, 2, 9, 28]).2.2.2 1 2 (by decide) (by decide) (by decide)⟩

/-- C15: the evaluators cannot fail on well-formed input. For `n ≥ 1`, a table `diff` of `n`
rows of `n` entries and an `x` of length `n`, every read of the evaluators is in range
(`diff[0][0]`, `diff[n - 1][0]`, and `diff[0][i]`, `x[i - 1]`, `diff[n - 1][i]`, `x[n - i]`
for `1 ≤ i ≤ n - 1`), every divisor `factorial(i)` is non-zero, and both evaluators return a
number. -/
theorem evaluators_total (x : List ℚ) (diff : Table) (value : ℚ) (n : ℕ) (hn : 1 ≤ n)
    (hrows : diff.length = n) (hcols : ∀ row ∈ diff, row.length = n) (hx : x.length = n) :
    ((readCell diff 0 0).isSome = true ∧ (readCell diff (n - 1) 0).isSome = true ∧
      ∀ i, 1 ≤ i → i ≤ n - 1 →
        (readCell diff 0 i).isSome = true ∧ (x[i - 1]?).isSome = true ∧
        (readCell diff (n - 1) i).isSome = true ∧ (x[n - i]?).isSome = true ∧
        factorial (i : ℤ) ≠ 0) ∧
    (∃ q : ℚ, evaluateNewtonGregory x diff value = .ok (some q)) ∧
    (∃ q : ℚ, evaluateNewtonGregoryBackward x diff value = .ok (some q)) := by
  have hsq : Square n diff := ⟨hrows, hcols⟩
  refine ⟨⟨?_, ?_, fun i hi1 hi2 => ⟨?_, ?_, ?_, ?_, ?_⟩⟩, ?_, ?_⟩
  · rw [readCell_eq_getCell hsq (by omega) (by omega)]; rfl
  · rw [readCell_eq_getCell hsq (by omega) (by omega)]; rfl
  · rw [readCell_eq_getCell hsq (by omega) (by omega)]; rfl
  · rw [List.getElem?_eq_getElem (by omega : i - 1 < x.length)]; rfl
  · rw [readCell_eq_getCell hsq (by omega) (by omega)]; rfl
  · rw [List.getElem?_eq_getElem (by omega : n - i < x.length)]; rfl
  · rw [factorial_natCast]
    exact_mod_cast Nat.factorial_ne_zero i
  · rw [evaluateNewtonGregory_eq_loop x diff value n hn hsq,
      forwardLoop_spec x diff value n hsq (by omega) (n - 1) le_rfl]
    exact ⟨_, rfl⟩
  · rw [evaluateNewtonGregoryBackward_eq_loop x diff value n hn hsq,
      backwardLoop_spec x diff value n hsq (by omega) (n - 1) le_rfl]
    exact ⟨_, rfl⟩

/-- Witness of C15 on `x = [0, 1]`, the table `[[1, 1], [2, 0]]` and the query value `5`. -/
theorem evaluators_total_witness :
    (1 ≤ 2 ∧ ([[1, 1], [2, 0]] : Table).length = 2 ∧
      (∀ row ∈ ([[1, 1], [2, 0]] : Table), row.length = 2) ∧ ([0, 1] : List ℚ).length = 2) ∧
    (∃ q : ℚ, evaluateNewtonGregory [0, 1] [[1, 1], [2, 0]] 5 = .ok (some q)) ∧
    (∃ q : ℚ, evaluateNewtonGregoryBackward [0, 1] [[1, 1], [2, 0]] 5 = .ok (some q)) :=
  ⟨⟨by decide, rfl, by simp, rfl⟩,
    (evaluators_total [0, 1] [[1, 1], [2, 0]] 5 2 (by decide) rfl (by simp) rfl).2⟩

/-! ## Fill order of the backward table -/

/-- Two square tables of the same side with the same cells are equal. -/
theorem table_ext {n : ℕ} {d d' : Table} (h : Square n d) (h' : Square n d')
    (hc : ∀ i j, getCell d i j = getCell d' i j) : d = d' := by
  refine List.ext_getElem (by rw [h.1, h'.1]) fun i hi hi' => ?_
  have hr : d[i].length = n := h.2 _ (List.getElem_mem _)
  have hr' : d'[i].length = n := h'.2 _ (List.getElem_mem _)
  refine List.ext_getElem (by rw [hr, hr']) fun j hj hj' => ?_
  have hij := hc i j
  unfold getCell at hij
  simpa [List.getD_eq_getElem?_getD, List.getElem?_eq_getElem hi, List.getElem?_eq_getElem hi',
    List.getElem?_eq_getElem hj, List.getElem?_eq_getElem hj'] using hij

/-- One column of the backward table filled upward equals the column filled downward. -/
theorem backwardColumnAscending_eq {n : ℕ} {d : Table} (hd : Square n d) {j : ℕ}
    (hj : 0 < j) (hjn : j < n) :
    backwardColumnAscending n d j = backwardColumn n d j := by
  have hup := foldl_column (n := n) (j := j) (c := j - 1) (by omega) hjn
    (fun t i => getCell t i (j - 1) - getCell t (i - 1) (j - 1))
    (fun t t' ht i => by simp only [ht]) (List.range' j (n - j))
    (fun i hi => by have := List.mem_range'_1.1 hi; omega) d hd
  have hdown := foldl_column (n := n) (j := j) (c := j - 1) (by omega) hjn
    (fun t i => getCell t i (j - 1) - getCell t (i - 1) (j - 1))
    (fun t t' ht i => by simp only [ht]) (List.range' j (n - j)).reverse
    (fun i hi => by have := List.mem_range'_1.1 (List.mem_reverse.1 hi); omega) d hd
  have e1 : backwardColumnAscending n d j = (List.range' j (n - j)).foldl
      (fun t i => setCell t i j (getCell t i (j - 1) - getCell t (i - 1) (j - 1))) d := rfl
  have e2 : backwardColumn n d j = (List.range' j (n - j)).reverse.foldl
      (fun t i => setCell t i j (getCell t i (j - 1) - getCell t (i - 1) (j - 1))) d := rfl
  rw [e1, e2]
  refine table_ext hup.1 hdown.1 fun i' j' => ?_
  rw [hup.2 i' j', hdown.2 i' j']
  simp only [List.mem_reverse]

theorem backwardAscending_columns (y : List ℚ) (m : ℕ) (hm : m ≤ y.length - 1) :
    (List.range' 1 m).foldl (backwardColumnAscending y.length)
        (initColumn y (zeroTable y.length)) =
      (List.range' 1 m).foldl (backwardColumn y.length)
        (initColumn y (zeroTable y.length)) := by
  induction m with
  | zero => rfl
  | succ m ih =>
    rw [List.range'_1_concat, List.foldl_append, List.foldl_append, ih (by omega)]
    simp only [List.foldl_cons, List.foldl_nil]
    exact backwardColumnAscending_eq (backwardColumns_spec y m (by omega)).1 (by omega)
      (by omega)

/-- C16: the fill order of the backward table does not affect the result. For every `y`,
the table of `newtonGregoryBackward` (each column filled with the row counter running
downward from `n - 1` to `j`) equals the table of the same construction with the row counter
running upward from `j` to `n - 1`. -/
theorem backward_fill_order (x y : List ℚ) :
    newtonGregoryBackwardAscending x y = newtonGregoryBackward x y :=
  backwardAscending_columns y (y.length - 1) le_rfl

/-! ## Anchor samples, re-indexing, unit spacing, factorial -/

/-- At its first node a Newton sum is its first coefficient. -/
theorem newtonSum_first_node (c a : ℕ → ℚ) (n : ℕ) (hn : 1 ≤ n) :
    newtonSum c a n (a 0) = c 0 := by
  unfold newtonSum
  rw [Finset.sum_eq_single 0]
  · simp
  · intro k _ hk
    have h0 : 0 ∈ Finset.range k := Finset.mem_range.2 (by omega)
    have hp : ∏ t in Finset.range k, (a 0 - a t) = 0 :=
      Finset.prod_eq_zero h0 (sub_self (a 0))
    rw [hp, mul_zero]
  · intro h
    exact absurd (Finset.mem_range.2 (by omega)) h

/-- C17: the anchor sample is always reproduced, whatever the spacing of `x`. For every
`n ≥ 1` and every `x` and `y` of length `n`, the forward evaluator on the forward table
returns `y[0]` at `x[0]`, and the backward evaluator on the backward table returns `y[n - 1]`
at `x[n - 1]`. -/
theorem anchor_sample (x y : List ℚ) (n : ℕ) (hn : 1 ≤ n) (hxn : x.length = n)
    (hyn : y.length = n) :
    evaluateNewtonGregory x (newtonGregoryForward x y) x[0] = .ok (some y[0]) ∧
    evaluateNewtonGregoryBackward x (newtonGregoryBackward x y) x[n - 1] =
      .ok (some y[n - 1]) := by
  subst hyn
  constructor
  · rw [forward_eval_newtonSum x y _ hn (by omega),
      ← List.getD_eq_getElem x 0 (by omega : 0 < x.length),
      newtonSum_first_node _ (fun t => x.getD t 0) _ hn]
    simp [delta, List.getElem?_eq_getElem (by omega : 0 < y.length)]
  · rw [backward_eval_newtonSum x y _ hn (by omega),
      ← List.getD_eq_getElem x 0 (by omega : y.length - 1 < x.length)]
    have h := newtonSum_first_node (fun k => delta y k (y.length - 1 - k) / (k.factorial : ℚ))
      (fun t => x.getD (y.length - (t + 1)) 0) y.length hn
    simp only [Nat.zero_add] at h
    rw [h]
    simp [delta, List.getElem?_eq_getElem (by omega : y.length - 1 < y.length)]

/-- Witness of C17 on the unevenly spaced `x = [0, 1, 3]` with `y = [5, 1, 3]`. -/
theorem anchor_sample_witness :
    (1 ≤ 3 ∧ ([0, 1, 3] : List ℚ).length = 3 ∧ ([5, 1, 3] : List ℚ).length = 3) ∧
    evaluateNewtonGregory [0, 1, 3] (newtonGregoryForward [0, 1, 3] [5, 1, 3]) 0 =
      .ok (some 5) ∧
    evaluateNewtonGregoryBackward [0, 1, 3] (newtonGregoryBackward [0, 1, 3] [5, 1, 3]) 3 =
      .ok (some 3) :=
  ⟨⟨by decide, rfl, rfl⟩, anchor_sample [0, 1, 3] [5, 1, 3] 3 (by decide) rfl rfl⟩

/-- C18: the backward table is the forward table re-indexed. For every `y` of length `n` and
every `i`, `j` with `0 ≤ j ≤ i < n`, the cell `newtonGregoryBackward(x, y)[i][j]` is in range
and equals the cell `newtonGregoryForward(x, y)[i - j][j]`. -/
theorem backward_reindexes_forward (x y : List ℚ) (i j : ℕ) (hji : j ≤ i)
    (hi : i < y.length) :
    (readCell (newtonGregoryBackward x y) i j).isSome = true ∧
    readCell (newtonGregoryBackward x y) i j =
      readCell (newtonGregoryForward x y) (i - j) j := by
  rw [readCell_eq_getCell (square_backward x y) hi (by omega),
    readCell_eq_getCell (square_forward x y) (by omega : i - j < y.length) (by omega),
    getCell_backward, getCell_forward, if_pos ⟨hji, hi⟩, if_pos (by omega)]
  exact ⟨rfl, rfl⟩

/-- Witness of C18 on `y = [1, 2, 9, 28]` at row 3, order 2: both cells hold `12`. -/
theorem backward_reindexes_forward_witness :
    (2 ≤ 3 ∧ 3 < ([1, 2, 9, 28] : List ℚ).length) ∧
    (readCell (newtonGregoryBackward [0, 1, 2, 3] [1, 2, 9, 28]) 3 2).isSome = true ∧
    readCell (newtonGregoryBackward [0, 1, 2, 3] [1, 2, 9, 28]) 3 2 =
      readCell (newtonGregoryForward [0, 1, 2, 3] [1, 2, 9, 28]) (3 - 2) 2 :=
  ⟨by decide, backward_reindexes_forward [0, 1, 2, 3] [1, 2, 9, 28] 3 2 (by decide)
    (by decide)⟩

/-- C19: for unit-spaced samples forward and backward evaluation coincide everywhere. For
every `n ≥ 1`, every `x` of length `n` with `x[i + 1] = x[i] + 1`, every `y` of length `n` and
every query `v`, the forward evaluator on the forward table and the backward evaluator on
the backward table return the same number. -/
theorem unit_spacing_agreement (x y : List ℚ) (n : ℕ) (v : ℚ) (hn : 1 ≤ n)
    (hxn : x.length = n) (hyn : y.length = n) (hx : UnitSpaced x) :
    (∃ q : ℚ, evaluateNewtonGregory x (newtonGregoryForward x y) v = .ok (some q)) ∧
    evaluateNewtonGregory x (newtonGregoryForward x y) v =
      evaluateNewtonGregoryBackward x (newtonGregoryBackward x y) v :=
  ⟨⟨_, forward_eval_unit x y v hx (by omega) (by omega)⟩,
    forward_eq_backward_unit x y v hx (by omega) (by omega)⟩

/-- Witness of C19 on `x = [0, 1, 2, 3]`, `y = [1, 2, 9, 28]` at the sample point `v = 2`. -/
theorem unit_spacing_agreement_witness :
    (1 ≤ 4 ∧ ([0, 1, 2, 3] : List ℚ).length = 4 ∧ ([1, 2, 9, 28] : List ℚ).length = 4 ∧
      UnitSpaced [0, 1, 2, 3]) ∧
    (∃ q : ℚ, evaluateNewtonGregory [0, 1, 2, 3]
      (newtonGregoryForward [0, 1, 2, 3] [1, 2, 9, 28]) 2 = .ok (some q)) ∧
    evaluateNewtonGregory [0, 1, 2, 3] (newtonGregoryForward [0, 1, 2, 3] [1, 2, 9, 28]) 2 =
      evaluateNewtonGregoryBackward [0, 1, 2, 3]
        (newtonGregoryBackward [0, 1, 2, 3] [1, 2, 9, 28]) 2 :=
  ⟨⟨by decide, rfl, rfl, unitSpaced_scenario⟩,
    unit_spacing_agreement [0, 1, 2, 3] [1, 2, 9, 28] 4 2 (by decide) rfl rfl
      unitSpaced_scenario⟩

theorem factorialDouble_of_le_one {num : ℤ} (h : num ≤ 1) : factorialDouble num = some 1 := by
  rw [factorialDouble, if_pos h]

theorem factorialDouble_natCast (k : ℕ) : factorialDouble (k : ℤ) = factorialDoubleNat k := by
  induction k with
  | zero => rw [factorialDouble]; simp [factorialDoubleNat]
  | succ k ih =>
    rw [factorialDouble]
    by_cases hk : k = 0
    · subst hk; simp [factorialDoubleNat]
    · have h1 : ¬ ((k + 1 : ℕ) : ℤ) ≤ 1 := by omega
      have e : ((k + 1 : ℕ) : ℤ) - 1 = (k : ℤ) := by push_cast; ring
      rw [if_neg h1, e, ih]
      simp [factorialDoubleNat, hk]

theorem one_le_div_droppedBits (fuel m : ℕ) (hm : 1 ≤ m) :
    1 ≤ m / 2 ^ droppedBits fuel m := by
  induction fuel generalizing m with
  | zero => simpa [droppedBits] using hm
  | succ fuel ih =>
    unfold droppedBits
    by_cases h : m < 2 ^ 53
    · rw [if_pos h]
      simpa using hm
    · have h2 : 1 ≤ m / 2 := by
        have : 2 ^ 53 ≤ m := Nat.le_of_not_lt h
        omega
      rw [if_neg h, pow_succ, mul_comm, ← Nat.div_div_eq_div_mul]
      exact ih (m / 2) h2

theorem one_le_of_roundDouble {m v : ℕ} (hm : 1 ≤ m) (h : roundDouble m = some v) :
    1 ≤ v := by
  have hq := one_le_div_droppedBits 1024 m hm
  have hp : 1 ≤ 2 ^ droppedBits 1024 m := Nat.one_le_two_pow
  unfold roundDouble at h
  simp only at h
  split_ifs at h
  all_goals
    have hv := Option.some.inj h
    rw [← hv]
    exact Nat.mul_pos (by omega) hp

theorem one_le_factorialDoubleNat (k : ℕ) :
    factorialDoubleNat k = none ∨ ∃ f, factorialDoubleNat k = some f ∧ 1 ≤ f := by
  induction k with
  | zero => exact Or.inr ⟨1, rfl, le_rfl⟩
  | succ k ih =>
    unfold factorialDoubleNat
    by_cases hk : k = 0
    · exact Or.inr ⟨1, by simp [hk], le_rfl⟩
    · rw [if_neg hk]
      rcases ih with h | ⟨f, h, hf⟩
      · exact Or.inl (by simp [h])
      · rw [h, Option.some_bind]
        cases hr : roundDouble ((k + 1) * f) with
        | none => exact Or.inl rfl
        | some v =>
          exact Or.inr ⟨v, rfl, one_le_of_roundDouble (Nat.mul_pos (by omega) hf) hr⟩

set_option maxRecDepth 100000 in
set_option exponentiation.threshold 1100 in
theorem factorialDoubleNat_overflow : factorialDoubleNat 171 = none := by
  decide

/-- C20, refuted as stated: in the doubles the source computes with, `factorial(23)` is the
rounded product `25852016738884978212864`, which is not `23! = 25852016738884976640000`. -/
theorem factorial_exact_counterexample :
    factorialDouble 23 = some 25852016738884978212864 ∧
    Nat.factorial 23 = 25852016738884976640000 ∧
    factorialDouble 23 ≠ some (Nat.factorial 23) := by
  have h : factorialDouble 23 = some 25852016738884978212864 := by
    rw [show (23 : ℤ) = ((23 : ℕ) : ℤ) from rfl, factorialDouble_natCast]
    decide
  have h2 : Nat.factorial 23 = 25852016738884976640000 := by decide
  refine ⟨h, h2, ?_⟩
  rw [h, h2]
  decide

/-- C20, amended: in the doubles the source computes with, `factorial(k)` equals `k!` for
every natural number `k ≤ 22` (with `factorial(0) = factorial(1) = 1`); for every integer
`num ≤ 1`, negatives included, `factorial(num) = 1`; for every integer argument that a
double holds exactly (up to `2 ^ 53`) the result is at least `1` or is `Infinity`, and
`factorial(171)` is `Infinity`. -/
theorem factorial_exact :
    (∀ k : ℕ, k ≤ 22 → factorialDouble (k : ℤ) = some k.factorial) ∧
    factorialDouble 0 = some 1 ∧ factorialDouble 1 = some 1 ∧
    (∀ num : ℤ, num ≤ 1 → factorialDouble num = some 1) ∧
    (∀ num : ℤ, num ≤ 2 ^ 53 →
      factorialDouble num = none ∨ ∃ f, factorialDouble num = some f ∧ 1 ≤ f) ∧
    factorialDouble 171 = none := by
  refine ⟨fun k hk => ?_, factorialDouble_of_le_one (by decide),
    factorialDouble_of_le_one (by decide), fun num h => factorialDouble_of_le_one h,
    fun num _ => ?_, ?_⟩
  rotate_left 2
  · rw [show (171 : ℤ) = ((171 : ℕ) : ℤ) from rfl, factorialDouble_natCast]
    exact factorialDoubleNat_overflow
  · rw [factorialDouble_natCast]
    have hall : ∀ j, j ≤ 22 → factorialDoubleNat j = some j.factorial := by decide
    exact hall k hk
  · by_cases h : num ≤ 1
    · exact Or.inr ⟨1, factorialDouble_of_le_one h, le_rfl⟩
    · have e : num = ((num.toNat : ℕ) : ℤ) := by omega
      rw [e, factorialDouble_natCast]
      exact one_le_factorialDoubleNat _

/-- Witness of the amended C20: `factorial(5) = 120 = 5!` and `factorial(-3) = 1`. -/
theorem factorial_exact_witness :
    (5 ≤ 22 ∧ (-3 : ℤ) ≤ 1) ∧
    factorialDouble ((5 : ℕ) : ℤ) = some (Nat.factorial 5) ∧ factorialDouble (-3) = some 1 :=
  ⟨by decide, factorial_exact.1 5 (by decide), factorial_exact.2.2.2.1 (-3) (by decide)⟩

end NewtonGregory
